import Mathlib

/-!
Verification of the propositional-logic core (semantics, soundness and
deduction engines) of the repository, via a shallow embedding of the
Python sources `propositions/semantics.py`, `propositions/soundness.py`
and `propositions/deduction.py`.  The formula / inference-rule / proof
data model lives in modules (`syntax.py`, `proofs.py`,
`axiomatic_systems.py`) that are not part of the sources; those parts
are modelled from the specification document, as indicated on each
definition.
-/

set_option maxRecDepth 4000

/-- Modelled from the spec: an immutable propositional formula tree.  A node is
a variable name, a boolean constant (`T`/`F`), a unary negation `~`, or a
binary node holding its operator string (one of `&`, `|`, `->`, `+`, `<->`,
`-&`, `-|`). -/
inductive Formula where
  | var : String → Formula
  | const : Bool → Formula
  | neg : Formula → Formula
  | binop : String → Formula → Formula → Formula
deriving DecidableEq, Repr

/-- Shorthand for an implication node, `Formula('->', a, b)` in the source. -/
def fImp (a b : Formula) : Formula := Formula.binop "->" a b

/-- A model: mapping from variable names to truth values.  Python dicts keep
insertion order, so a model is embedded as an association list in which only
the first binding of a key is visible. -/
abbrev Model : Type := List (String × Bool)

/-- First binding of a key in a model, `model[v]` lookup. -/
def modelLookup (m : Model) (v : String) : Option Bool :=
  match List.find? (fun p => p.1 = v) m with
  | some p => some p.2
  | none => none

/-- Python dict assignment `m[k] = b`: overwrite in place if the key is
present, append otherwise. -/
def dictSet (m : Model) (k : String) (b : Bool) : Model :=
  if List.any m (fun p => p.1 = k) then
    List.map (fun p => if p.1 = k then (k, b) else p) m
  else
    m ++ [(k, b)]

/-- The variable names a model is defined over, in order. -/
def modelKeys (m : Model) : List String := List.map Prod.fst m

/-- `evaluate(formula, model)` from `semantics.py`: recursive truth-value
computation; a variable missing from the model (excluded by the contract)
reads as `false`, and an unknown binary operator falls through to the final
`return False` of the source. -/
def evaluate : Formula → Model → Bool
  | Formula.const b, _ => b
  | Formula.var v, m => (modelLookup m v).getD false
  | Formula.neg f, m => ! evaluate f m
  | Formula.binop op f g, m =>
    let l := evaluate f m
    let r := evaluate g m
    if op = "&" then l && r
    else if op = "|" then l || r
    else if op = "->" then (! l) || r
    else if op = "+" then l != r
    else if op = "<->" then l == r
    else if op = "-&" then ! (l && r)
    else if op = "-|" then ! (l || r)
    else false

/-- One model of `all_models`: for bit pattern `i`, variable number `j` (in
the given order) is assigned bit `n - 1 - j` of `i`, the first variable being
the most significant bit. -/
def buildModel (vs : List String) (i : Nat) : Model :=
  List.foldl
    (fun m j => dictSet m (vs.getD j "") (Nat.testBit i (vs.length - 1 - j)))
    [] (List.range vs.length)

/-- `all_models(variables)` from `semantics.py`: all `2 ^ n` assignments, in
lexicographic order. -/
def allModels (vs : List String) : List Model :=
  List.map (buildModel vs) (List.range (2 ^ vs.length))

/-- `truth_values(formula, models)` from `semantics.py`. -/
def truthValues (f : Formula) (models : List Model) : List Bool :=
  List.map (fun m => evaluate f m) models

/-- The bits of `i`, most significant first, down to bit `0` at the last slot
of an `n`-slot window. -/
def bitsBE (n i : Nat) : List Bool :=
  List.map (fun j => Nat.testBit i (n - 1 - j)) (List.range n)

/-- The truth values of a model, in variable order. -/
def modelVals (m : Model) : List Bool := List.map Prod.snd m

/-- Variables of a formula, with duplicates; `Formula.variables()` itself
returns a set whose iteration order is unspecified, and every use below is
order-insensitive. -/
def formulaVarsRaw : Formula → List String
  | Formula.var v => [v]
  | Formula.const _ => []
  | Formula.neg f => formulaVarsRaw f
  | Formula.binop _ f g => formulaVarsRaw f ++ formulaVarsRaw g

/-- Modelled from the spec: `Formula.variables()` (from the missing
`syntax.py`), the set of variable names of a formula, embedded as a
duplicate-free list. -/
def formulaVars (f : Formula) : List String := (formulaVarsRaw f).dedup

/-- `is_tautology(formula)` from `semantics.py`. -/
def isTautology (f : Formula) : Bool :=
  List.all (allModels (formulaVars f)) (fun m => evaluate f m)

/-- `is_contradiction(formula)` from `semantics.py`. -/
def isContradiction (f : Formula) : Bool :=
  List.all (allModels (formulaVars f)) (fun m => ! evaluate f m)

/-- `is_satisfiable(formula)` from `semantics.py`. -/
def isSatisfiable (f : Formula) : Bool :=
  List.any (allModels (formulaVars f)) (fun m => evaluate f m)

example : evaluate (Formula.neg (Formula.binop "&" (Formula.var "p") (Formula.var "q76")))
    [("p", true), ("q76", false)] = true := by decide

example : allModels ["p", "q"] =
    [[("p", false), ("q", false)], [("p", false), ("q", true)],
     [("p", true), ("q", false)], [("p", true), ("q", true)]] := by decide

example : isTautology (Formula.binop "|" (Formula.var "p") (Formula.neg (Formula.var "p"))) =
    true := by decide

/-- The literal `_synthesize_for_model` emits for one dict item: the variable
itself when its value is true, its negation otherwise. -/
def synthAtom (q : String × Bool) : Formula :=
  if q.2 then Formula.var q.1 else Formula.neg (Formula.var q.1)

/-- `_synthesize_for_model(model)` from `semantics.py`: conjunctive clause that
holds exactly in the given model; the source starts from `None` and folds the
dict items with `&`, so an empty model (excluded by the contract) maps to a
junk constant here. -/
def synthesizeForModel (m : Model) : Formula :=
  match m with
  | [] => Formula.const false
  | p :: rest =>
    List.foldl (fun acc q => Formula.binop "&" acc (synthAtom q)) (synthAtom p) rest

/-- `synthesize(variables, values)` from `semantics.py`: DNF over the models
whose target value is true; all-false truth tables yield `v0 & ~v0`. -/
def synthesize (vs : List String) (values : List Bool) : Formula :=
  let models := allModels vs
  let clauses := List.filterMap
    (fun mv : Model × Bool => if mv.2 then some (synthesizeForModel mv.1) else none)
    (List.zip models values)
  match clauses with
  | [] => Formula.binop "&" (Formula.var (vs.headD ""))
      (Formula.neg (Formula.var (vs.headD "")))
  | c :: rest => List.foldl (fun acc cl => Formula.binop "|" acc cl) c rest

example : truthValues (synthesize ["p", "q"] [true, true, true, false])
    (allModels ["p", "q"]) = [true, true, true, false] := by decide

/-- Modelled from the spec: an inference rule (from the missing `proofs.py`),
an ordered sequence of assumption formulas plus one conclusion formula. -/
structure InferenceRule where
  assumptions : List Formula
  conclusion : Formula
deriving DecidableEq, Repr

/-- A variable-to-formula substitution mapping, as an association list. -/
abbrev SpecMap : Type := List (String × Formula)

/-- First binding of a variable in a substitution mapping. -/
def smLookup (σ : SpecMap) (v : String) : Option Formula :=
  match List.find? (fun p => p.1 = v) σ with
  | some p => some p.2
  | none => none

/-- Whether a new binding is consistent with an existing mapping. -/
def smAgrees (σ : SpecMap) (k : String) (f : Formula) : Bool :=
  match smLookup σ k with
  | none => true
  | some g => g = f

/-- Modelled from the spec: merging two substitution mappings, failing when
they bind a shared variable to different formulas. -/
def mergeMaps (σ1 σ2 : SpecMap) : Option SpecMap :=
  if σ2.all (fun kv => smAgrees σ1 kv.1 kv.2) then
    some (σ1 ++ σ2.filter (fun kv => (smLookup σ1 kv.1).isNone))
  else none

/-- Modelled from the spec: the substitution mapping turning the general
formula into the special one, if any.  The mapping must be consistent: a
variable occurring several times in the general formula must map to the same
formula each time. -/
def formulaSpecMap : Formula → Formula → Option SpecMap
  | Formula.var v, s => some [(v, s)]
  | Formula.const b, s => if s = Formula.const b then some [] else none
  | Formula.neg g, Formula.neg s => formulaSpecMap g s
  | Formula.neg _, _ => none
  | Formula.binop op g1 g2, Formula.binop op2 s1 s2 =>
    if op = op2 then
      match formulaSpecMap g1 s1, formulaSpecMap g2 s2 with
      | some σ1, some σ2 => mergeMaps σ1 σ2
      | _, _ => none
    else none
  | Formula.binop _ _ _, _ => none

/-- Modelled from the spec: `InferenceRule.specialization_map` — the single
consistent substitution turning every formula of `general` (assumptions in
order, then conclusion) into the corresponding formula of `special`. -/
def ruleSpecMap (general special : InferenceRule) : Option SpecMap :=
  if special.assumptions.length = general.assumptions.length then
    List.foldl
      (fun acc gs =>
        match acc, formulaSpecMap gs.1 gs.2 with
        | some σ, some σ2 => mergeMaps σ σ2
        | _, _ => none)
      (some [])
      (List.zip (general.assumptions ++ [general.conclusion])
        (special.assumptions ++ [special.conclusion]))
  else none

/-- Modelled from the spec: `InferenceRule.is_specialization_of`. -/
def isSpecializationOf (special general : InferenceRule) : Bool :=
  (ruleSpecMap general special).isSome

/-- Modelled from the spec: one line of a proof (`Proof.Line` of the missing
`proofs.py`): its formula, the rule justifying it (`none` for an assumption
line), and the indices of the earlier lines the rule is applied to. -/
structure ProofLine where
  formula : Formula
  rule : Option InferenceRule
  refs : List Nat
deriving DecidableEq, Repr

/-- Placeholder line used for out-of-range index lookups (the Python source
would raise there; every use below is guarded by the claims' contracts). -/
def junkLine : ProofLine := ⟨Formula.const false, none, []⟩

/-- Modelled from the spec: a deductive proof (`Proof` of the missing
`proofs.py`): a statement, a set of permitted rules and a line sequence. -/
structure Proof where
  statement : InferenceRule
  rules : Finset InferenceRule
  lines : List ProofLine

/-- Modelled from the spec: `Proof.rule_for_line` — the rule instance a
derived line claims to use: the formulas of its referenced lines as
assumptions, in order, and the line's formula as conclusion. -/
def ruleForLine (lines : List ProofLine) (i : Nat) : InferenceRule :=
  ⟨List.map (fun j => (lines.getD j junkLine).formula) (lines.getD i junkLine).refs,
   (lines.getD i junkLine).formula⟩

/-- Modelled from the spec: validity of one proof line.  An assumption line
must carry one of the declared assumptions; a derived line must cite a
permitted rule, reference only strictly earlier lines, and its rule instance
must be a specialization of the cited rule. -/
def lineOK (stmt : InferenceRule) (rules : Finset InferenceRule)
    (lines : List ProofLine) (i : Nat) : Bool :=
  match (lines.getD i junkLine).rule with
  | none => decide ((lines.getD i junkLine).formula ∈ stmt.assumptions)
  | some r =>
    decide (r ∈ rules) &&
    (lines.getD i junkLine).refs.all (fun j => decide (j < i)) &&
    isSpecializationOf (ruleForLine lines i) r

/-- Modelled from the spec: `Proof.is_valid` — every line is valid and the
last line's formula is the statement's conclusion. -/
def Proof.isValid (p : Proof) : Bool :=
  decide (p.lines ≠ []) &&
  decide ((p.lines.getLastD junkLine).formula = p.statement.conclusion) &&
  (List.range p.lines.length).all (fun i => lineOK p.statement p.rules p.lines i)

/-- Modelled from the spec: Modus Ponens, assumptions `p` and `p -> q`,
conclusion `q`. -/
def MP : InferenceRule :=
  ⟨[Formula.var "p", fImp (Formula.var "p") (Formula.var "q")], Formula.var "q"⟩

/-- Modelled from the spec: the reflexivity schema `p -> p`. -/
def I0 : InferenceRule := ⟨[], fImp (Formula.var "p") (Formula.var "p")⟩

/-- Modelled from the spec: the weakening schema `p -> (q -> p)`. -/
def I1 : InferenceRule :=
  ⟨[], fImp (Formula.var "p") (fImp (Formula.var "q") (Formula.var "p"))⟩

/-- Modelled from the spec: the distribution schema
`(p -> (q -> r)) -> ((p -> q) -> (p -> r))`. -/
def D : InferenceRule :=
  ⟨[], fImp (fImp (Formula.var "p") (fImp (Formula.var "q") (Formula.var "r")))
    (fImp (fImp (Formula.var "p") (Formula.var "q"))
      (fImp (Formula.var "p") (Formula.var "r")))⟩

/-- Modelled from the spec: the double-negation elimination schema
`(~p -> ~q) -> (q -> p)`. -/
def N : InferenceRule :=
  ⟨[], fImp (fImp (Formula.neg (Formula.var "p")) (Formula.neg (Formula.var "q")))
    (fImp (Formula.var "q") (Formula.var "p"))⟩

/-- Modelled from the spec: the explosion schema `~p -> (p -> q)`. -/
def I2 : InferenceRule :=
  ⟨[], fImp (Formula.neg (Formula.var "p"))
    (fImp (Formula.var "p") (Formula.var "q"))⟩

/-- Modelled from the spec: `InferenceRule.variables()` — the set of variable
names occurring in the rule's formulas, embedded as a duplicate-free list. -/
def ruleVariables (r : InferenceRule) : List String :=
  (List.foldr (fun f acc => formulaVarsRaw f ++ acc) []
    (r.assumptions ++ [r.conclusion])).dedup

/-- Modelled from the spec: `evaluate_inference(rule, model)` (a stub in the
source `semantics.py`; its documented contract is the specification): the
rule holds in the model iff all assumptions being true implies the conclusion
being true. -/
def evaluateInference (r : InferenceRule) (m : Model) : Bool :=
  if r.assumptions.all (fun f => evaluate f m) then evaluate r.conclusion m else true

/-- Modelled from the spec: `is_sound_inference(rule)` (a stub in the source
`semantics.py`; its documented contract is the specification): the rule holds
in every model over its variable set. -/
def isSoundInference (r : InferenceRule) : Bool :=
  (allModels (ruleVariables r)).all (fun m => evaluateInference r m)

/-- `rule_nonsoundness_from_specialization_nonsoundness` from `soundness.py`:
assign to each variable of the general rule the value of its substituted
formula in the given model. -/
def ruleNonsoundness (general special : InferenceRule) (model : Model) : Model :=
  List.map
    (fun v => (v,
      evaluate ((smLookup ((ruleSpecMap general special).getD []) v).getD
        (Formula.const false)) model))
    (ruleVariables general)

/-- The possible outcomes of `nonsound_rule_of_nonsound_proof`: returning a
rule-model pair, halting on a failed `assert`, or falling off the loop end
(the Python function then implicitly returns `None`). -/
inductive NRes where
  | found : InferenceRule → Model → NRes
  | assertHalt : NRes
  | noReturn : NRes
deriving DecidableEq, Repr

/-- The line walk of `nonsound_rule_of_nonsound_proof`, carrying the current
line index. -/
def nrLoop (lines : List ProofLine) (model : Model) : Nat → List ProofLine → NRes
  | _, [] => NRes.noReturn
  | i, l :: rest =>
    match l.rule with
    | none =>
      if evaluate l.formula model then nrLoop lines model (i + 1) rest
      else NRes.assertHalt
    | some r =>
      if evaluate l.formula model then nrLoop lines model (i + 1) rest
      else NRes.found r (ruleNonsoundness r (ruleForLine lines i) model)

/-- `nonsound_rule_of_nonsound_proof(proof, model)` from `soundness.py`. -/
def nonsoundRuleOfNonsoundProof (p : Proof) (model : Model) : NRes :=
  nrLoop p.lines model 0 p.lines

/-- `prove_corollary(antecedent_proof, consequent, conditional)` from
`deduction.py`. -/
def proveCorollary (p : Proof) (consequent : Formula)
    (conditional : InferenceRule) : Proof :=
  let antecedent := p.statement.conclusion
  let nl1 := p.lines ++ [⟨fImp antecedent consequent, some conditional, []⟩]
  let nl2 := nl1 ++ [⟨consequent, some MP, [nl1.length - 2, nl1.length - 1]⟩]
  ⟨⟨p.statement.assumptions, consequent⟩, p.rules ∪ {MP, conditional}, nl2⟩

/-- The re-indexing `combine_proofs` applies to an appended line: a derived
line has every referenced index shifted, an assumption line is kept as is. -/
def shiftLine (shift : Nat) (l : ProofLine) : ProofLine :=
  match l.rule with
  | none => l
  | some _ => ⟨l.formula, l.rule, List.map (fun a => a + shift) l.refs⟩

/-- `combine_proofs(antecedent1_proof, antecedent2_proof, consequent,
double_conditional)` from `deduction.py`. -/
def combineProofs (p1 p2 : Proof) (consequent : Formula)
    (doubleConditional : InferenceRule) : Proof :=
  let a1 := p1.statement.conclusion
  let a2 := p2.statement.conclusion
  let shift := p1.lines.length
  let nl := p1.lines ++ List.map (shiftLine shift) p2.lines
  let idxA1 := shift - 1
  let idxA2 := nl.length - 1
  let nl2 := nl ++ [⟨fImp a1 (fImp a2 consequent), some doubleConditional, []⟩]
  let idxSchema := nl2.length - 1
  let nl3 := nl2 ++ [⟨fImp a2 consequent, some MP, [idxA1, idxSchema]⟩]
  let idxMid := nl3.length - 1
  let nl4 := nl3 ++ [⟨consequent, some MP, [idxA2, idxMid]⟩]
  ⟨⟨p1.statement.assumptions, consequent⟩, p1.rules ∪ {MP, doubleConditional}, nl4⟩

/-- One iteration of the (second, effective) loop of `remove_assumption` from
`deduction.py`: the accumulator holds the new lines and the mapping from
original line index to the index of its converted `psi -> phi` line. -/
def raStep (ψ : Formula) (orig : List ProofLine)
    (acc : List ProofLine × List Nat) (l : ProofLine) : List ProofLine × List Nat :=
  let nl := acc.1
  let mapping := acc.2
  if l.formula = ψ ∧ l.rule = none then
    (nl ++ [⟨fImp ψ ψ, some I0, []⟩], mapping ++ [nl.length])
  else if (match l.rule with | none => true | some r => r.assumptions.isEmpty) then
    (nl ++ [l,
      ⟨fImp l.formula (fImp ψ l.formula), some I1, []⟩,
      ⟨fImp ψ l.formula, some MP, [nl.length, nl.length + 1]⟩],
     mapping ++ [nl.length + 2])
  else
    let j := l.refs.getD 0 0
    let k := l.refs.getD 1 0
    let pj := (orig.getD j junkLine).formula
    let pi := l.formula
    (nl ++ [⟨fImp (fImp ψ (fImp pj pi)) (fImp (fImp ψ pj) (fImp ψ pi)), some D, []⟩,
      ⟨fImp (fImp ψ pj) (fImp ψ pi), some MP, [mapping.getD k 0, nl.length]⟩,
      ⟨fImp ψ pi, some MP, [mapping.getD j 0, nl.length + 1]⟩],
     mapping ++ [nl.length + 2])

/-- `remove_assumption(proof)` from `deduction.py` (the first loop of the
source builds a list it then discards, so only the second loop is
embedded). -/
def removeAssumption (p : Proof) : Proof :=
  let ψ := p.statement.assumptions.getLastD (Formula.const false)
  let γ := p.statement.assumptions.dropLast
  let res := List.foldl (raStep ψ p.lines) ([], []) p.lines
  ⟨⟨γ, fImp ψ p.statement.conclusion⟩, p.rules ∪ {MP, I0, I1, D}, res.1⟩

/-- `prove_from_opposites(proof_of_affirmation, proof_of_negation,
conclusion)` from `deduction.py`. -/
def proveFromOpposites (proofOfAffirmation proofOfNegation : Proof)
    (conclusion : Formula) : Proof :=
  combineProofs proofOfNegation proofOfAffirmation conclusion I2

/-- `prove_by_way_of_contradiction(proof)` from `deduction.py`. -/
def proveByWayOfContradiction (p : Proof) : Proof :=
  let q := removeAssumption p
  let phi := match p.statement.assumptions.getLastD (Formula.const false) with
    | Formula.neg f => f
    | _ => Formula.const false
  let fpp := fImp (Formula.var "p") (Formula.var "p")
  let nl := q.lines
  let nl2 := nl ++
    [⟨fImp (fImp (Formula.neg phi) (Formula.neg fpp)) (fImp fpp phi), some N, []⟩,
     ⟨fImp fpp phi, some MP, [nl.length - 1, nl.length]⟩,
     ⟨fpp, some I0, []⟩,
     ⟨phi, some MP, [nl.length + 2, nl.length + 1]⟩]
  ⟨⟨q.statement.assumptions, phi⟩, q.rules ∪ {MP, I0, I1, D, N}, nl2⟩

/-- The acyclicity invariant of the spec: every derived line references only
strictly earlier lines. -/
def refsOK (lines : List ProofLine) : Bool :=
  (List.range lines.length).all (fun i =>
    match (lines.getD i junkLine).rule with
    | none => true
    | some _ => (lines.getD i junkLine).refs.all (fun j => decide (j < i)))

/-- Loop invariant of `remove_assumption` after `t` original lines have been
processed: the mapping has one entry per processed line, each mapping entry
points below the new length at a line proving `psi -> (original formula)`,
every new line is valid for the target statement and rule set, and the most
recent mapping entry is the last new line. -/
def RAInv (stmt : InferenceRule) (rules : Finset InferenceRule) (ψ : Formula)
    (orig : List ProofLine) (t : Nat) (acc : List ProofLine × List Nat) : Prop :=
  acc.2.length = t ∧
  (∀ i, i < t → acc.2.getD i 0 < acc.1.length ∧
    (acc.1.getD (acc.2.getD i 0) junkLine).formula =
      fImp ψ ((orig.getD i junkLine).formula)) ∧
  (∀ m, m < acc.1.length → lineOK stmt rules acc.1 m = true) ∧
  (t ≠ 0 → acc.1 ≠ [] ∧ acc.2.getD (t - 1) 0 = acc.1.length - 1)

/-- Concrete one-line proof of `x` from assumptions `x`, `y` (used to
instantiate proved theorems below). -/
def exP1 : Proof :=
  ⟨⟨[Formula.var "x", Formula.var "y"], Formula.var "x"⟩, ∅,
    [⟨Formula.var "x", none, []⟩]⟩

/-- Concrete one-line proof of `y` from assumptions `x`, `y`. -/
def exP2 : Proof :=
  ⟨⟨[Formula.var "x", Formula.var "y"], Formula.var "y"⟩, ∅,
    [⟨Formula.var "y", none, []⟩]⟩

/-- Concrete double-conditional rule `p -> (q -> r)`. -/
def exDC : InferenceRule :=
  ⟨[], fImp (Formula.var "p") (fImp (Formula.var "q") (Formula.var "r"))⟩

/-- Concrete assumptionless rule concluding the absurdity `~(p->p)`. -/
def exA0 : InferenceRule :=
  ⟨[], Formula.neg (fImp (Formula.var "p") (Formula.var "p"))⟩

/-- Concrete one-line proof of `~(p->p)` from the single assumption `~q`,
via the rule `exA0`. -/
def exNegQProof : Proof :=
  ⟨⟨[Formula.neg (Formula.var "q")],
    Formula.neg (fImp (Formula.var "p") (Formula.var "p"))⟩, {exA0},
    [⟨Formula.neg (fImp (Formula.var "p") (Formula.var "p")), some exA0, []⟩]⟩

/-- Concrete one-line proof of `q` from the single assumption `q`. -/
def exAssumpQ : Proof :=
  ⟨⟨[Formula.var "q"], Formula.var "q"⟩, ∅, [⟨Formula.var "q", none, []⟩]⟩

/-- Concrete one-line proof of `x` from assumptions `x`, `~x`. -/
def exOppA : Proof :=
  ⟨⟨[Formula.var "x", Formula.neg (Formula.var "x")], Formula.var "x"⟩, ∅,
    [⟨Formula.var "x", none, []⟩]⟩

/-- Concrete one-line proof of `~x` from assumptions `x`, `~x`. -/
def exOppN : Proof :=
  ⟨⟨[Formula.var "x", Formula.neg (Formula.var "x")],
    Formula.neg (Formula.var "x")⟩, ∅,
    [⟨Formula.neg (Formula.var "x"), none, []⟩]⟩

/-- Concrete assumptionless rule concluding `q` (not sound). -/
def exBad : InferenceRule := ⟨[], Formula.var "q"⟩

/-- Concrete one-line proof of `q` from no assumptions via `exBad`. -/
def exBadProof : Proof :=
  ⟨⟨[], Formula.var "q"⟩, {exBad}, [⟨Formula.var "q", some exBad, []⟩]⟩

lemma dictSet_fresh (m : Model) (k : String) (b : Bool) (h : ∀ p ∈ m, p.1 ≠ k) :
    dictSet m k b = m ++ [(k, b)] := by
  unfold dictSet
  have : List.any m (fun p => decide (p.1 = k)) = false := by
    simp only [List.any_eq_false, decide_eq_true_eq]
    exact h
  rw [this]
  simp

lemma foldl_dictSet_range (vs : List String) (g : Nat → Bool) (hnd : vs.Nodup) :
    ∀ k, k ≤ vs.length →
      List.foldl (fun m j => dictSet m (vs.getD j "") (g j)) [] (List.range k) =
        List.map (fun j => (vs.getD j "", g j)) (List.range k) := by
  intro k
  induction k with
  | zero => intro _; rfl
  | succ k ih =>
    intro hk
    rw [List.range_succ, List.foldl_append, List.map_append, ih (Nat.le_of_succ_le hk)]
    simp only [List.foldl_cons, List.foldl_nil, List.map_cons, List.map_nil]
    apply dictSet_fresh
    intro p hp
    simp only [List.mem_map, List.mem_range] at hp
    obtain ⟨j, hj, rfl⟩ := hp
    simp only [ne_eq]
    have hjlen : j < vs.length := lt_of_lt_of_le (Nat.lt_succ_of_lt hj) hk
    have hklen : k < vs.length := lt_of_lt_of_le (Nat.lt_succ_self k) hk
    rw [List.getD_eq_getElem _ _ hjlen, List.getD_eq_getElem _ _ hklen]
    intro hEq
    exact absurd (List.Nodup.getElem_inj_iff hnd |>.mp hEq) (Nat.ne_of_lt hj)

lemma buildModel_eq (vs : List String) (i : Nat) (hnd : vs.Nodup) :
    buildModel vs i =
      List.map (fun j => (vs.getD j "", Nat.testBit i (vs.length - 1 - j)))
        (List.range vs.length) := by
  exact foldl_dictSet_range vs _ hnd vs.length (le_refl _)

lemma modelKeys_buildModel (vs : List String) (i : Nat) (hnd : vs.Nodup) :
    modelKeys (buildModel vs i) = vs := by
  rw [buildModel_eq vs i hnd]
  unfold modelKeys
  rw [List.map_map]
  apply List.ext_getElem
  · simp
  · intro j h1 h2
    simp only [List.length_map, List.length_range] at h1
    simp only [List.getElem_map, List.getElem_range, Function.comp_apply]
    exact List.getD_eq_getElem _ _ h1

lemma modelVals_buildModel (vs : List String) (i : Nat) (hnd : vs.Nodup) :
    modelVals (buildModel vs i) = bitsBE vs.length i := by
  rw [buildModel_eq vs i hnd]
  unfold modelVals bitsBE
  rw [List.map_map]
  rfl

lemma allModels_length (vs : List String) :
    (allModels vs).length = 2 ^ vs.length := by
  unfold allModels
  rw [List.length_map, List.length_range]

lemma allModels_getElem (vs : List String) (i : Nat) (h : i < (allModels vs).length) :
    (allModels vs)[i] = buildModel vs i := by
  unfold allModels
  simp

/-- In an association list with duplicate-free keys, looking up the key of the
`j`-th entry returns the `j`-th value. -/
lemma modelLookup_getElem (m : Model) (hnd : (modelKeys m).Nodup) (j : Nat)
    (hj : j < m.length) : modelLookup m m[j].1 = some m[j].2 := by
  induction m generalizing j with
  | nil => exact absurd hj (Nat.not_lt_zero j)
  | cons p rest ih =>
    match j with
    | 0 =>
      unfold modelLookup
      simp
    | Nat.succ j' =>
      have hj' : j' < rest.length := Nat.lt_of_succ_lt_succ hj
      have hne : p.1 ≠ rest[j'].1 := by
        unfold modelKeys at hnd
        simp only [List.map_cons, List.nodup_cons] at hnd
        intro hEq
        exact hnd.1 (hEq ▸ List.mem_map_of_mem Prod.fst (List.getElem_mem hj'))
      unfold modelLookup
      simp only [List.getElem_cons_succ]
      rw [List.find?_cons_of_neg]
      · have := ih (by
          unfold modelKeys at hnd ⊢
          simp only [List.map_cons, List.nodup_cons] at hnd
          exact hnd.2) j' hj'
        unfold modelLookup at this
        exact this
      · simp only [decide_eq_true_eq]
        exact hne

lemma modelLookup_buildModel (vs : List String) (i : Nat) (hnd : vs.Nodup)
    (j : Nat) (hj : j < vs.length) :
    modelLookup (buildModel vs i) vs[j] = some (Nat.testBit i (vs.length - 1 - j)) := by
  have hlen : (buildModel vs i).length = vs.length := by
    rw [buildModel_eq vs i hnd]; simp
  have hjb : j < (buildModel vs i).length := by rw [hlen]; exact hj
  have hget : (buildModel vs i)[j] =
      (vs[j], Nat.testBit i (vs.length - 1 - j)) := by
    rw [List.getElem_of_eq (buildModel_eq vs i hnd)]
    simp only [List.getElem_map, List.getElem_range]
    rw [List.getD_eq_getElem _ _ hj]
  have := modelLookup_getElem (buildModel vs i)
    (by rw [modelKeys_buildModel vs i hnd]; exact hnd) j (by rw [hlen]; exact hj)
  rw [hget] at this
  exact this

lemma bitsBE_zero (i : Nat) : bitsBE 0 i = [] := rfl

lemma bitsBE_succ (n i : Nat) :
    bitsBE (n + 1) i = Nat.testBit i n :: bitsBE n (i % 2 ^ n) := by
  unfold bitsBE
  rw [List.range_succ_eq_map, List.map_cons, List.map_map]
  refine congrArg₂ _ (by simp) ?_
  apply List.map_congr_left
  intro j hj
  simp only [List.mem_range] at hj
  simp only [Function.comp_apply, Nat.testBit_mod_two_pow]
  have h1 : n - 1 - j < n := by omega
  have h2 : n + 1 - 1 - (j + 1) = n - 1 - j := by omega
  rw [h2]
  simp [h1]

lemma div_pow_eq_toNat_testBit {n i : Nat} (h : i < 2 ^ (n + 1)) :
    i / 2 ^ n = (Nat.testBit i n).toNat := by
  have hd : i / 2 ^ n < 2 := by
    apply Nat.div_lt_of_lt_mul
    rw [← Nat.pow_succ]
    exact h
  rw [Nat.testBit_to_div_mod]
  have : i / 2 ^ n = 0 ∨ i / 2 ^ n = 1 := by
    revert hd
    generalize i / 2 ^ n = d
    intro hd
    omega
  rcases this with h0 | h1
  · rw [h0]; simp
  · rw [h1]; simp

lemma bits_lex (n : Nat) : ∀ i i' : Nat, i < i' → i' < 2 ^ n →
    List.Lex (· < ·) (bitsBE n i) (bitsBE n i') := by
  induction n with
  | zero =>
    intro i i' hlt hb
    omega
  | succ n ih =>
    intro i i' hlt hb
    have hib : i < 2 ^ (n + 1) := lt_trans hlt hb
    rw [bitsBE_succ, bitsBE_succ]
    have hdi := div_pow_eq_toNat_testBit hib
    have hdi' := div_pow_eq_toNat_testBit hb
    have hmod' : i' % 2 ^ n < 2 ^ n := Nat.mod_lt _ (Nat.pos_pow_of_pos n (by omega))
    have hdm : 2 ^ n * (i / 2 ^ n) + i % 2 ^ n = i := Nat.div_add_mod i (2 ^ n)
    have hdm' : 2 ^ n * (i' / 2 ^ n) + i' % 2 ^ n = i' := Nat.div_add_mod i' (2 ^ n)
    cases hti : Nat.testBit i n with
    | false =>
      cases hti' : Nat.testBit i' n with
      | false =>
        apply List.Lex.cons
        apply ih
        · rw [hti] at hdi; rw [hti'] at hdi'
          simp only [Bool.toNat_false] at hdi hdi'
          rw [hdi] at hdm; rw [hdi'] at hdm'
          simp only [Nat.mul_zero, Nat.zero_add] at hdm hdm'
          omega
        · exact hmod'
      | true => exact List.Lex.rel (by decide)
    | true =>
      cases hti' : Nat.testBit i' n with
      | false =>
        exfalso
        rw [hti] at hdi; rw [hti'] at hdi'
        simp only [Bool.toNat_true, Bool.toNat_false] at hdi hdi'
        rw [hdi] at hdm; rw [hdi'] at hdm'
        simp only [Nat.mul_one, Nat.mul_zero, Nat.zero_add] at hdm hdm'
        omega
      | true =>
        apply List.Lex.cons
        apply ih
        · rw [hti] at hdi; rw [hti'] at hdi'
          simp only [Bool.toNat_true] at hdi hdi'
          rw [hdi] at hdm; rw [hdi'] at hdm'
          simp only [Nat.mul_one] at hdm hdm'
          omega
        · exact hmod'

/-- Any assignment of truth values to the slots is realized by some bit
pattern below `2 ^ n`. -/
lemma bitsBE_complete (g : Nat → Bool) : ∀ n : Nat, ∃ i, i < 2 ^ n ∧
    ∀ j, j < n → Nat.testBit i (n - 1 - j) = g j := by
  intro n
  induction n generalizing g with
  | zero => exact ⟨0, by simp, fun j hj => absurd hj (Nat.not_lt_zero j)⟩
  | succ n ih =>
    obtain ⟨i', hi'b, hi'⟩ := ih (fun j => g (j + 1))
    refine ⟨cond (g 0) (2 ^ n) 0 + i', ?_, ?_⟩
    · cases hg : g 0 <;> simp only [cond_true, cond_false] <;> omega
    · intro j hj
      match j with
      | 0 =>
        simp only [Nat.sub_zero, Nat.add_sub_cancel]
        cases hg : g 0 with
        | false =>
          simp only [cond_false, Nat.zero_add]
          exact Nat.testBit_lt_two_pow hi'b
        | true =>
          simp only [cond_true]
          rw [Nat.testBit_two_pow_add_eq, Nat.testBit_lt_two_pow hi'b]
          rfl
      | Nat.succ j' =>
        have hj' : j' < n := by omega
        have hpos : n + 1 - 1 - (j' + 1) = n - 1 - j' := by omega
        have hlow : n - 1 - j' < n := by omega
        rw [hpos]
        cases hg : g 0 with
        | false =>
          simp only [cond_false, Nat.zero_add]
          exact hi' j' hj'
        | true =>
          simp only [cond_true]
          rw [Nat.testBit_two_pow_add_gt hlow]
          exact hi' j' hj'

lemma evaluate_and (a b : Formula) (m : Model) :
    evaluate (Formula.binop "&" a b) m = (evaluate a m && evaluate b m) := rfl

lemma evaluate_or (a b : Formula) (m : Model) :
    evaluate (Formula.binop "|" a b) m = (evaluate a m || evaluate b m) := rfl

lemma evaluate_synthAtom (q : String × Bool) (m : Model) :
    evaluate (synthAtom q) m = ((modelLookup m q.1).getD false == q.2) := by
  rcases q with ⟨v, b⟩
  cases b <;> simp [synthAtom, evaluate]

lemma evaluate_foldl_and (l : List (String × Bool)) (a : Formula) (m : Model) :
    evaluate (List.foldl (fun acc q => Formula.binop "&" acc (synthAtom q)) a l) m =
      (evaluate a m && l.all (fun q => evaluate (synthAtom q) m)) := by
  induction l generalizing a with
  | nil => simp
  | cons q rest ih =>
    rw [List.foldl_cons, ih, List.all_cons, evaluate_and, Bool.and_assoc]

lemma evaluate_foldl_or (cs : List Formula) (a : Formula) (m : Model) :
    evaluate (List.foldl (fun acc c => Formula.binop "|" acc c) a cs) m =
      (evaluate a m || cs.any (fun c => evaluate c m)) := by
  induction cs generalizing a with
  | nil => simp
  | cons c rest ih =>
    rw [List.foldl_cons, ih, List.any_cons, evaluate_or, Bool.or_assoc]

lemma evaluate_synthesizeForModel (m m' : Model) (hm : m ≠ []) :
    evaluate (synthesizeForModel m) m' =
      m.all (fun q => (modelLookup m' q.1).getD false == q.2) := by
  match m with
  | [] => exact absurd rfl hm
  | p :: rest =>
    unfold synthesizeForModel
    rw [evaluate_foldl_and, List.all_cons]
    simp only [evaluate_synthAtom]

lemma evaluate_clause_buildModel (vs : List String) (hne : vs ≠ []) (hnd : vs.Nodup)
    (s t : Nat) (hs : s < 2 ^ vs.length) (ht : t < 2 ^ vs.length) :
    evaluate (synthesizeForModel (buildModel vs s)) (buildModel vs t) = decide (s = t) := by
  have hlen : (buildModel vs s).length = vs.length := by
    rw [buildModel_eq vs s hnd]; simp
  have hbne : buildModel vs s ≠ [] := by
    intro h
    rw [h] at hlen
    exact hne (List.eq_nil_of_length_eq_zero hlen.symm)
  rw [evaluate_synthesizeForModel _ _ hbne]
  have hform : ∀ j, j < vs.length →
      ((modelLookup (buildModel vs t) (vs.getD j "")).getD false ==
        Nat.testBit s (vs.length - 1 - j)) =
      (Nat.testBit t (vs.length - 1 - j) == Nat.testBit s (vs.length - 1 - j)) := by
    intro j hj
    rw [List.getD_eq_getElem _ _ hj, modelLookup_buildModel vs t hnd j hj]
    rfl
  by_cases hst : s = t
  · subst hst
    rw [decide_eq_true rfl, List.all_eq_true]
    intro q hq
    rw [buildModel_eq vs s hnd] at hq
    simp only [List.mem_map, List.mem_range] at hq
    obtain ⟨j, hj, rfl⟩ := hq
    rw [hform j hj]
    exact beq_self_eq_true _
  · rw [decide_eq_false hst]
    rw [List.all_eq_false]
    have hkne : ¬ ∀ k, Nat.testBit s k = Nat.testBit t k := by
      intro h
      exact hst (Nat.eq_of_testBit_eq h)
    push_neg at hkne
    obtain ⟨k, hk⟩ := hkne
    have hkn : k < vs.length := by
      by_contra hkge
      push_neg at hkge
      have hsk : Nat.testBit s k = false :=
        Nat.testBit_lt_two_pow (lt_of_lt_of_le hs (Nat.pow_le_pow_right (by omega) hkge))
      have htk : Nat.testBit t k = false :=
        Nat.testBit_lt_two_pow (lt_of_lt_of_le ht (Nat.pow_le_pow_right (by omega) hkge))
      exact hk (hsk.trans htk.symm)
    refine ⟨(vs.getD (vs.length - 1 - k) "",
      Nat.testBit s (vs.length - 1 - (vs.length - 1 - k))), ?_, ?_⟩
    · rw [buildModel_eq vs s hnd]
      simp only [List.mem_map, List.mem_range]
      exact ⟨vs.length - 1 - k, by omega, rfl⟩
    · have hj : vs.length - 1 - k < vs.length := by omega
      have hback : vs.length - 1 - (vs.length - 1 - k) = k := by omega
      rw [hform _ hj, hback]
      simp only [beq_iff_eq]
      exact fun h => hk h.symm

lemma any_filterMap_clauses (L : List (Model × Bool)) (m' : Model) :
    (List.filterMap
      (fun mv : Model × Bool => if mv.2 then some (synthesizeForModel mv.1) else none)
      L).any (fun c => evaluate c m') =
    L.any (fun mv => mv.2 && evaluate (synthesizeForModel mv.1) m') := by
  induction L with
  | nil => rfl
  | cons mv rest ih =>
    rcases mv with ⟨m, b⟩
    cases b <;> simp [ih]

lemma evaluate_synthesize_any (vs : List String) (values : List Bool) (m' : Model) :
    evaluate (synthesize vs values) m' =
      (List.zip (allModels vs) values).any
        (fun mv => mv.2 && evaluate (synthesizeForModel mv.1) m') := by
  rw [← any_filterMap_clauses]
  unfold synthesize
  cases hcs : List.filterMap
      (fun mv : Model × Bool => if mv.2 then some (synthesizeForModel mv.1) else none)
      (List.zip (allModels vs) values) with
  | nil =>
    simp only [hcs, List.any_nil]
    rw [evaluate_and]
    show (evaluate (Formula.var (vs.headD "")) m' &&
      ! evaluate (Formula.var (vs.headD "")) m') = false
    exact Bool.and_not_self _
  | cons c rest =>
    simp only [hcs]
    rw [evaluate_foldl_or, List.any_cons]

lemma values_eq_map_range (values : List Bool) :
    values = List.map (fun s => values.getD s false) (List.range values.length) := by
  apply List.ext_getElem
  · simp
  · intro j h1 h2
    simp only [List.getElem_map, List.getElem_range]
    exact (List.getD_eq_getElem _ _ h1).symm

/-- C9: for an ordered list of distinct variable names, `all_models` yields
exactly `2 ^ n` models, each a total mapping over exactly that variable set in
that order, in lexicographic order where the first variable is the most
significant bit and `false` precedes `true`; in particular
`all_models(['p','q'])` yields exactly the models FF, FT, TF, TT in that
order. -/
theorem allModels_spec :
    (∀ vs : List String, vs.Nodup →
      (allModels vs).length = 2 ^ vs.length ∧
      (∀ m ∈ allModels vs, modelKeys m = vs) ∧
      List.Pairwise
        (fun m1 m2 => List.Lex (· < ·) (modelVals m1) (modelVals m2))
        (allModels vs)) ∧
    allModels ["p", "q"] =
      [[("p", false), ("q", false)], [("p", false), ("q", true)],
       [("p", true), ("q", false)], [("p", true), ("q", true)]] := by
  constructor
  · intro vs hnd
    refine ⟨allModels_length vs, ?_, ?_⟩
    · intro m hm
      unfold allModels at hm
      simp only [List.mem_map, List.mem_range] at hm
      obtain ⟨i, _, rfl⟩ := hm
      exact modelKeys_buildModel vs i hnd
    · rw [List.pairwise_iff_getElem]
      intro i j hi hj hij
      rw [allModels_getElem vs i hi, allModels_getElem vs j hj,
        modelVals_buildModel vs i hnd, modelVals_buildModel vs j hnd]
      exact bits_lex vs.length i j hij (by rw [allModels_length] at hj; exact hj)
  · decide

theorem allModels_spec_witness :
    (allModels ["p", "q"]).length = 2 ^ (["p", "q"] : List String).length ∧
    (∀ m ∈ allModels ["p", "q"], modelKeys m = ["p", "q"]) ∧
    List.Pairwise
      (fun m1 m2 => List.Lex (· < ·) (modelVals m1) (modelVals m2))
      (allModels ["p", "q"]) :=
  allModels_spec.1 ["p", "q"] (by decide)

/-- C10: `is_satisfiable` returns the boolean negation of `is_contradiction`:
a formula is reported satisfiable exactly when it is not reported a
contradiction. -/
theorem isSatisfiable_eq_not_isContradiction (f : Formula) :
    isSatisfiable f = ! isContradiction f := by
  unfold isSatisfiable isContradiction
  induction allModels (formulaVars f) with
  | nil => rfl
  | cons m ms ih =>
    simp only [List.any_cons, List.all_cons, Bool.not_and, ih, Bool.not_not]

/-- C8 (amended): for a nonempty list of distinct variable names `vs` and a
truth-value sequence of length `2 ^ len(vs)`, evaluating `synthesize vs
values` in each model of `all_models vs`, in order, reproduces exactly
`values`; in particular an all-false sequence yields a formula false in every
model.  (The claim as stated, without distinctness, is refuted by
`synthesize_roundtrip_counterexample`.) -/
theorem synthesize_roundtrip (vs : List String) (values : List Bool)
    (hne : vs ≠ []) (hnd : vs.Nodup) (hlen : values.length = 2 ^ vs.length) :
    truthValues (synthesize vs values) (allModels vs) = values ∧
    (values.all (fun b => b = false) →
      ∀ m ∈ allModels vs, evaluate (synthesize vs values) m = false) := by
  have main : truthValues (synthesize vs values) (allModels vs) = values := by
    apply List.ext_getElem
    · unfold truthValues
      rw [List.length_map, allModels_length, hlen]
    · intro t h1 h2
      unfold truthValues at h1 ⊢
      rw [List.length_map, allModels_length] at h1
      simp only [List.getElem_map]
      rw [allModels_getElem vs t (by rw [allModels_length]; exact h1)]
      rw [evaluate_synthesize_any]
      conv_lhs =>
        rw [values_eq_map_range values]
      rw [hlen]
      unfold allModels
      rw [List.zip_map']
      cases hvt : values[t] with
      | true =>
        rw [List.any_eq_true]
        refine ⟨(buildModel vs t, values.getD t false), ?_, ?_⟩
        · exact List.mem_map_of_mem _ (List.mem_range.mpr h1)
        · rw [List.getD_eq_getElem _ _ h2, hvt,
            evaluate_clause_buildModel vs hne hnd t t h1 h1]
          simp
      | false =>
        rw [List.any_eq_false]
        intro x hx
        rw [List.mem_map] at hx
        obtain ⟨s, hs, rfl⟩ := hx
        rw [List.mem_range] at hs
        simp only
        rw [evaluate_clause_buildModel vs hne hnd s t hs h1]
        intro hcontra
        rw [Bool.and_eq_true, decide_eq_true_eq] at hcontra
        obtain ⟨hval, rfl⟩ := hcontra
        rw [List.getD_eq_getElem _ _ h2, hvt] at hval
        exact Bool.false_ne_true hval
  refine ⟨main, ?_⟩
  intro hall m hm
  obtain ⟨t, ht, rfl⟩ := List.mem_iff_getElem.mp hm
  have httv : t < (truthValues (synthesize vs values) (allModels vs)).length := by
    unfold truthValues
    rw [List.length_map]
    exact ht
  have : evaluate (synthesize vs values) (allModels vs)[t] =
      (truthValues (synthesize vs values) (allModels vs))[t] := by
    unfold truthValues
    rw [List.getElem_map]
  rw [this]
  have hvt : t < values.length := by
    rw [hlen, ← allModels_length]
    exact ht
  rw [List.all_eq_true] at hall
  have := hall values[t] (List.getElem_mem hvt)
  simp only [decide_eq_true_eq] at this
  rw [List.getElem_of_eq main]
  exact this

theorem synthesize_roundtrip_witness :
    truthValues (synthesize ["p", "q"] [true, true, true, false])
      (allModels ["p", "q"]) = [true, true, true, false] :=
  (synthesize_roundtrip ["p", "q"] [true, true, true, false]
    (by decide) (by decide) (by decide)).1

theorem synthesize_roundtrip_counterexample :
    (["p", "p"] : List String) ≠ [] ∧
    ([true, false, false, false] : List Bool).length = 2 ^ (["p", "p"] : List String).length ∧
    truthValues (synthesize ["p", "p"] [true, false, false, false])
      (allModels ["p", "p"]) ≠ [true, false, false, false] := by
  refine ⟨by decide, by decide, by decide⟩

/-- C5: `prove_corollary` appends exactly two lines to the original proof —
the specialized conditional line and a Modus-Ponens line combining the
original proof's final line with it — with conclusion `consequent`, unchanged
assumptions, and rule set `original ∪ {MP, conditional}`. -/
theorem proveCorollary_spec (p : Proof) (consequent : Formula)
    (conditional : InferenceRule) (hv : p.isValid = true)
    (hc : isSpecializationOf ⟨[], fImp p.statement.conclusion consequent⟩
      conditional = true) :
    (proveCorollary p consequent conditional).lines =
      p.lines ++
        [⟨fImp p.statement.conclusion consequent, some conditional, []⟩,
         ⟨consequent, some MP, [p.lines.length - 1, p.lines.length]⟩] ∧
    (proveCorollary p consequent conditional).statement =
      ⟨p.statement.assumptions, consequent⟩ ∧
    (proveCorollary p consequent conditional).rules = p.rules ∪ {MP, conditional} ∧
    ((proveCorollary p consequent conditional).lines.getLastD junkLine).formula =
      consequent := by
  have hlen : (p.lines ++ [(⟨fImp p.statement.conclusion consequent,
      some conditional, []⟩ : ProofLine)]).length = p.lines.length + 1 := by
    simp
  refine ⟨?_, rfl, rfl, ?_⟩
  · show (p.lines ++ [_]) ++ [(⟨consequent, some MP, [_, _]⟩ : ProofLine)] = _
    rw [List.append_assoc, hlen]
    have h1 : p.lines.length + 1 - 2 = p.lines.length - 1 := by omega
    have h2 : p.lines.length + 1 - 1 = p.lines.length := by omega
    rw [h1, h2]
    rfl
  · show ((_ ++ [(⟨consequent, some MP, [_, _]⟩ : ProofLine)]).getLastD junkLine).formula = _
    rw [List.getLastD_concat]

theorem proveCorollary_spec_witness :
    (proveCorollary
      ⟨⟨[Formula.var "x"], Formula.var "x"⟩, ∅, [⟨Formula.var "x", none, []⟩]⟩
      (Formula.var "y") ⟨[], fImp (Formula.var "p") (Formula.var "q")⟩).lines =
      [⟨Formula.var "x", none, []⟩] ++
        [⟨fImp (Formula.var "x") (Formula.var "y"), some
          ⟨[], fImp (Formula.var "p") (Formula.var "q")⟩, []⟩,
         ⟨Formula.var "y", some MP, [0, 1]⟩] ∧
    (proveCorollary
      ⟨⟨[Formula.var "x"], Formula.var "x"⟩, ∅, [⟨Formula.var "x", none, []⟩]⟩
      (Formula.var "y") ⟨[], fImp (Formula.var "p") (Formula.var "q")⟩).statement =
      ⟨[Formula.var "x"], Formula.var "y"⟩ ∧
    (proveCorollary
      ⟨⟨[Formula.var "x"], Formula.var "x"⟩, ∅, [⟨Formula.var "x", none, []⟩]⟩
      (Formula.var "y") ⟨[], fImp (Formula.var "p") (Formula.var "q")⟩).rules =
      ∅ ∪ {MP, ⟨[], fImp (Formula.var "p") (Formula.var "q")⟩} ∧
    ((proveCorollary
      ⟨⟨[Formula.var "x"], Formula.var "x"⟩, ∅, [⟨Formula.var "x", none, []⟩]⟩
      (Formula.var "y") ⟨[], fImp (Formula.var "p") (Formula.var "q")⟩).lines.getLastD
        junkLine).formula = Formula.var "y" :=
  proveCorollary_spec
    ⟨⟨[Formula.var "x"], Formula.var "x"⟩, ∅, [⟨Formula.var "x", none, []⟩]⟩
    (Formula.var "y") ⟨[], fImp (Formula.var "p") (Formula.var "q")⟩
    (by decide) (by decide)

lemma combineProofs_lines_eq (p1 p2 : Proof) (c : Formula) (dc : InferenceRule) :
    (combineProofs p1 p2 c dc).lines =
      p1.lines ++ List.map (shiftLine p1.lines.length) p2.lines ++
        [⟨fImp p1.statement.conclusion (fImp p2.statement.conclusion c), some dc, []⟩,
         ⟨fImp p2.statement.conclusion c, some MP,
           [p1.lines.length - 1, p1.lines.length + p2.lines.length]⟩,
         ⟨c, some MP,
           [p1.lines.length + p2.lines.length - 1,
            p1.lines.length + p2.lines.length + 1]⟩] := by
  show ((p1.lines ++ List.map (shiftLine p1.lines.length) p2.lines) ++ [_]) ++ [_] ++ [_] = _
  have hn : (p1.lines ++ List.map (shiftLine p1.lines.length) p2.lines).length =
      p1.lines.length + p2.lines.length := by
    simp
  rw [List.append_assoc, List.append_assoc]
  have h2 : ((p1.lines ++ List.map (shiftLine p1.lines.length) p2.lines) ++
      [(⟨fImp p1.statement.conclusion (fImp p2.statement.conclusion c),
        some dc, []⟩ : ProofLine)]).length =
      p1.lines.length + p2.lines.length + 1 := by
    simp
    omega
  rw [hn, h2]
  have h3 : ((p1.lines ++ List.map (shiftLine p1.lines.length) p2.lines) ++
      [(⟨fImp p1.statement.conclusion (fImp p2.statement.conclusion c),
        some dc, []⟩ : ProofLine)] ++
      [(⟨fImp p2.statement.conclusion c, some MP,
        [p1.lines.length - 1, p1.lines.length + p2.lines.length + 1 - 1]⟩ :
          ProofLine)]).length = p1.lines.length + p2.lines.length + 2 := by
    simp
    omega
  rw [h3]
  have e1 : p1.lines.length + p2.lines.length + 1 - 1 =
      p1.lines.length + p2.lines.length := by omega
  have e2 : p1.lines.length + p2.lines.length + 2 - 1 =
      p1.lines.length + p2.lines.length + 1 := by omega
  rw [e1, e2]
  simp [List.append_assoc]

/-- C3: `combine_proofs` concatenates `p1`'s lines, then `p2`'s lines with
every referenced index of every derived line shifted by `len(p1.lines)`, then
the specialized double-conditional line, an MP line combining `p1`'s final
line with it into `antecedent2 -> consequent`, and a final MP line combining
`p2`'s final (shifted) line with that intermediate into `consequent`; the
result keeps the shared assumptions and adds `MP` and `double_conditional` to
the shared rule set. -/
theorem combineProofs_spec (p1 p2 : Proof) (c : Formula) (dc : InferenceRule)
    (hv1 : p1.isValid = true) (hv2 : p2.isValid = true)
    (hassum : p1.statement.assumptions = p2.statement.assumptions)
    (hrules : p1.rules = p2.rules)
    (hdc : isSpecializationOf
      ⟨[], fImp p1.statement.conclusion (fImp p2.statement.conclusion c)⟩ dc = true) :
    (combineProofs p1 p2 c dc).lines =
      p1.lines ++ List.map (shiftLine p1.lines.length) p2.lines ++
        [⟨fImp p1.statement.conclusion (fImp p2.statement.conclusion c), some dc, []⟩,
         ⟨fImp p2.statement.conclusion c, some MP,
           [p1.lines.length - 1, p1.lines.length + p2.lines.length]⟩,
         ⟨c, some MP,
           [p1.lines.length + p2.lines.length - 1,
            p1.lines.length + p2.lines.length + 1]⟩] ∧
    (∀ l : ProofLine, (shiftLine p1.lines.length l).formula = l.formula ∧
      (shiftLine p1.lines.length l).rule = l.rule ∧
      (shiftLine p1.lines.length l).refs =
        (if l.rule = none then l.refs
         else List.map (fun a => a + p1.lines.length) l.refs)) ∧
    (combineProofs p1 p2 c dc).statement = ⟨p1.statement.assumptions, c⟩ ∧
    (combineProofs p1 p2 c dc).rules = p1.rules ∪ {MP, dc} ∧
    ((combineProofs p1 p2 c dc).lines.getLastD junkLine).formula = c := by
  refine ⟨combineProofs_lines_eq p1 p2 c dc, ?_, rfl, rfl, ?_⟩
  · intro l
    match hl : l.rule with
    | none =>
      unfold shiftLine
      rcases l with ⟨f, r, rs⟩
      simp only at hl
      rw [hl]
      exact ⟨rfl, rfl, by simp⟩
    | some r =>
      unfold shiftLine
      rcases l with ⟨f, rr, rs⟩
      simp only at hl
      rw [hl]
      refine ⟨rfl, rfl, ?_⟩
      rw [if_neg (by simp)]
  · show ((_ ++ [(⟨c, some MP, [_, _]⟩ : ProofLine)]).getLastD junkLine).formula = c
    rw [List.getLastD_concat]

theorem combineProofs_spec_witness :
    (combineProofs exP1 exP2 (Formula.var "z") exDC).lines =
      exP1.lines ++ List.map (shiftLine exP1.lines.length) exP2.lines ++
        [⟨fImp exP1.statement.conclusion
            (fImp exP2.statement.conclusion (Formula.var "z")), some exDC, []⟩,
         ⟨fImp exP2.statement.conclusion (Formula.var "z"), some MP,
           [exP1.lines.length - 1, exP1.lines.length + exP2.lines.length]⟩,
         ⟨Formula.var "z", some MP,
           [exP1.lines.length + exP2.lines.length - 1,
            exP1.lines.length + exP2.lines.length + 1]⟩] ∧
    (∀ l : ProofLine, (shiftLine exP1.lines.length l).formula = l.formula ∧
      (shiftLine exP1.lines.length l).rule = l.rule ∧
      (shiftLine exP1.lines.length l).refs =
        (if l.rule = none then l.refs
         else List.map (fun a => a + exP1.lines.length) l.refs)) ∧
    (combineProofs exP1 exP2 (Formula.var "z") exDC).statement =
      ⟨exP1.statement.assumptions, Formula.var "z"⟩ ∧
    (combineProofs exP1 exP2 (Formula.var "z") exDC).rules =
      exP1.rules ∪ {MP, exDC} ∧
    ((combineProofs exP1 exP2 (Formula.var "z") exDC).lines.getLastD
      junkLine).formula = Formula.var "z" :=
  combineProofs_spec exP1 exP2 (Formula.var "z") exDC
    (by decide) (by decide) (by decide) (by decide) (by decide)

lemma spec_MP (a b : Formula) : isSpecializationOf ⟨[a, fImp a b], b⟩ MP = true := by
  simp [isSpecializationOf, ruleSpecMap, MP, formulaSpecMap, mergeMaps, smAgrees, smLookup, fImp]

lemma spec_I0 (a : Formula) : isSpecializationOf ⟨[], fImp a a⟩ I0 = true := by
  simp [isSpecializationOf, ruleSpecMap, I0, formulaSpecMap, mergeMaps, smAgrees, smLookup, fImp]

lemma spec_I1 (a b : Formula) : isSpecializationOf ⟨[], fImp a (fImp b a)⟩ I1 = true := by
  simp [isSpecializationOf, ruleSpecMap, I1, formulaSpecMap, mergeMaps, smAgrees, smLookup, fImp]

lemma spec_D (x y z : Formula) :
    isSpecializationOf
      ⟨[], fImp (fImp x (fImp y z)) (fImp (fImp x y) (fImp x z))⟩ D = true := by
  simp [isSpecializationOf, ruleSpecMap, D, formulaSpecMap, mergeMaps, smAgrees, smLookup, fImp]

lemma spec_N (a b : Formula) :
    isSpecializationOf
      ⟨[], fImp (fImp (Formula.neg a) (Formula.neg b)) (fImp b a)⟩ N = true := by
  simp [isSpecializationOf, ruleSpecMap, N, formulaSpecMap, mergeMaps, smAgrees, smLookup, fImp]

lemma spec_MP_inv (a b c : Formula) (h : isSpecializationOf ⟨[a, b], c⟩ MP = true) :
    b = fImp a c := by
  cases b with
  | binop op b1 b2 =>
    by_cases hop : op = "->"
    · subst hop
      by_cases hab : a = b1
      · subst hab
        by_cases hbc : b2 = c
        · subst hbc
          rfl
        · exfalso
          unfold isSpecializationOf ruleSpecMap MP at h
          simp [formulaSpecMap, mergeMaps, smAgrees, smLookup, fImp, hbc] at h
      · exfalso
        unfold isSpecializationOf ruleSpecMap MP at h
        simp [formulaSpecMap, mergeMaps, smAgrees, smLookup, fImp, hab] at h
    · exfalso
      have hop2 : ¬ ("->" : String) = op := fun hh => hop hh.symm
      unfold isSpecializationOf ruleSpecMap MP at h
      simp [formulaSpecMap, mergeMaps, smAgrees, smLookup, fImp, hop2] at h
  | var v =>
    exfalso
    unfold isSpecializationOf ruleSpecMap MP at h
    simp [formulaSpecMap, mergeMaps, smAgrees, smLookup, fImp] at h
  | const bb =>
    exfalso
    unfold isSpecializationOf ruleSpecMap MP at h
    simp [formulaSpecMap, mergeMaps, smAgrees, smLookup, fImp] at h
  | neg f =>
    exfalso
    unfold isSpecializationOf ruleSpecMap MP at h
    simp [formulaSpecMap, mergeMaps, smAgrees, smLookup, fImp] at h

lemma spec_length (S G : InferenceRule) (h : isSpecializationOf S G = true) :
    S.assumptions.length = G.assumptions.length := by
  unfold isSpecializationOf ruleSpecMap at h
  by_cases hlen : S.assumptions.length = G.assumptions.length
  · exact hlen
  · rw [if_neg hlen] at h
    exact absurd h (by simp)

lemma getD_append_add (l1 l2 : List ProofLine) (k : Nat) :
    (l1 ++ l2).getD (l1.length + k) junkLine = l2.getD k junkLine := by
  rw [List.getD_append_right _ _ _ _ (Nat.le_add_right _ _)]
  congr 1
  omega

lemma getDN_append_add (l1 l2 : List Nat) (k : Nat) :
    (l1 ++ l2).getD (l1.length + k) 0 = l2.getD k 0 := by
  rw [List.getD_append_right _ _ _ _ (Nat.le_add_right _ _)]
  congr 1
  omega

lemma isValid_iff (p : Proof) :
    p.isValid = true ↔
      p.lines ≠ [] ∧
      (p.lines.getLastD junkLine).formula = p.statement.conclusion ∧
      ∀ i, i < p.lines.length → lineOK p.statement p.rules p.lines i = true := by
  unfold Proof.isValid
  rw [Bool.and_eq_true, Bool.and_eq_true]
  simp only [decide_eq_true_eq, List.all_eq_true, List.mem_range]
  tauto

lemma lineOK_none_iff (stmt : InferenceRule) (rules : Finset InferenceRule)
    (lines : List ProofLine) (i : Nat) (h : (lines.getD i junkLine).rule = none) :
    lineOK stmt rules lines i =
      decide ((lines.getD i junkLine).formula ∈ stmt.assumptions) := by
  unfold lineOK
  rw [h]

lemma lineOK_some_iff (stmt : InferenceRule) (rules : Finset InferenceRule)
    (lines : List ProofLine) (i : Nat) (r : InferenceRule)
    (h : (lines.getD i junkLine).rule = some r) :
    lineOK stmt rules lines i =
      (decide (r ∈ rules) &&
        (lines.getD i junkLine).refs.all (fun j => decide (j < i)) &&
        isSpecializationOf (ruleForLine lines i) r) := by
  unfold lineOK
  rw [h]

lemma lineOK_mono_rules (stmt : InferenceRule) (rules rules2 : Finset InferenceRule)
    (hsub : rules ⊆ rules2) (lines : List ProofLine) (i : Nat)
    (hok : lineOK stmt rules lines i = true) : lineOK stmt rules2 lines i = true := by
  cases hrule : (lines.getD i junkLine).rule with
  | none =>
    rw [lineOK_none_iff stmt rules lines i hrule] at hok
    rw [lineOK_none_iff stmt rules2 lines i hrule]
    exact hok
  | some r =>
    rw [lineOK_some_iff stmt rules lines i r hrule] at hok
    rw [lineOK_some_iff stmt rules2 lines i r hrule]
    simp only [Bool.and_eq_true, decide_eq_true_eq] at hok ⊢
    exact ⟨⟨hsub hok.1.1, hok.1.2⟩, hok.2⟩

lemma lineOK_append (stmt : InferenceRule) (rules : Finset InferenceRule)
    (lines ext : List ProofLine) (i : Nat) (hi : i < lines.length)
    (hok : lineOK stmt rules lines i = true) :
    lineOK stmt rules (lines ++ ext) i = true := by
  have hgd : (lines ++ ext).getD i junkLine = lines.getD i junkLine :=
    List.getD_append _ _ _ _ hi
  cases hrule : (lines.getD i junkLine).rule with
  | none =>
    rw [lineOK_none_iff stmt rules lines i hrule] at hok
    rw [lineOK_none_iff stmt rules (lines ++ ext) i (by rw [hgd]; exact hrule), hgd]
    exact hok
  | some r =>
    rw [lineOK_some_iff stmt rules lines i r hrule] at hok
    rw [lineOK_some_iff stmt rules (lines ++ ext) i r (by rw [hgd]; exact hrule)]
    simp only [Bool.and_eq_true] at hok ⊢
    obtain ⟨⟨h1, h2⟩, h3⟩ := hok
    refine ⟨⟨h1, by rw [hgd]; exact h2⟩, ?_⟩
    have hmap : List.map (fun j => ((lines ++ ext).getD j junkLine).formula)
        (lines.getD i junkLine).refs =
        List.map (fun j => (lines.getD j junkLine).formula)
          (lines.getD i junkLine).refs := by
      apply List.map_congr_left
      intro j hj
      rw [List.all_eq_true] at h2
      have hji := h2 j hj
      rw [decide_eq_true_eq] at hji
      rw [List.getD_append _ _ _ _ (lt_trans hji hi)]
    unfold ruleForLine at h3 ⊢
    rw [hgd, hmap]
    exact h3

lemma refsOK_of_linesOK (stmt : InferenceRule) (rules : Finset InferenceRule)
    (lines : List ProofLine)
    (h : ∀ i, i < lines.length → lineOK stmt rules lines i = true) :
    refsOK lines = true := by
  unfold refsOK
  rw [List.all_eq_true]
  intro i hi
  rw [List.mem_range] at hi
  have hok := h i hi
  cases hrule : (lines.getD i junkLine).rule with
  | none => rfl
  | some r =>
    rw [lineOK_some_iff stmt rules lines i r hrule] at hok
    simp only [Bool.and_eq_true] at hok
    exact hok.1.2

lemma getD_append_len (l l2 : List ProofLine) :
    (l ++ l2).getD l.length junkLine = l2.getD 0 junkLine := by
  simpa using getD_append_add l l2 0

lemma getDN_append_len (l l2 : List Nat) :
    (l ++ l2).getD l.length 0 = l2.getD 0 0 := by
  simpa using getDN_append_add l l2 0

lemma getLastD_eq_getD_pred {α : Type} (l : List α) (d : α) (h : l ≠ []) :
    l.getLastD d = l.getD (l.length - 1) d := by
  cases l with
  | nil => exact absurd rfl h
  | cons a as =>
    rw [List.getLastD_eq_getLast?, List.getLast?_eq_getElem?]
    rw [List.getD_eq_getD_get?, List.get?_eq_getElem?]

lemma raStep_inv
    (stmt : InferenceRule) (rules : Finset InferenceRule)
    (ψ : Formula) (γ : List Formula)
    (orig : List ProofLine)
    (origStmt : InferenceRule) (origRules : Finset InferenceRule)
    (hstmt : stmt.assumptions = γ)
    (hassum : origStmt.assumptions = γ ++ [ψ])
    (hrsub : origRules ⊆ rules)
    (hMP : MP ∈ rules) (hI0 : I0 ∈ rules) (hI1 : I1 ∈ rules) (hD : D ∈ rules)
    (hr : ∀ r ∈ origRules, r = MP ∨ r.assumptions = [])
    (t : Nat) (ht : t < orig.length)
    (hlineok : lineOK origStmt origRules orig t = true)
    (acc : List ProofLine × List Nat)
    (hinv : RAInv stmt rules ψ orig t acc) :
    RAInv stmt rules ψ orig (t + 1) (raStep ψ orig acc (orig.getD t junkLine)) := by
  obtain ⟨hlen, hmap, hok, hlast⟩ := hinv
  unfold raStep
  by_cases hb1 : (orig.getD t junkLine).formula = ψ ∧ (orig.getD t junkLine).rule = none
  · rw [if_pos hb1]
    refine ⟨?_, ?_, ?_, ?_⟩
    · simp [hlen]
    · intro i hi
      by_cases hit : i < t
      · obtain ⟨hm1, hm2⟩ := hmap i hit
        rw [List.getD_append _ _ _ _ (by rw [hlen]; exact hit)]
        constructor
        · calc acc.2.getD i 0 < acc.1.length := hm1
            _ ≤ (acc.1 ++ [(⟨fImp ψ ψ, some I0, []⟩ : ProofLine)]).length := by simp
        · rw [List.getD_append _ _ _ _ hm1]
          exact hm2
      · have hit2 : i = t := by omega
        subst hit2
        have hmap2 : (acc.2 ++ [acc.1.length]).getD i 0 = acc.1.length := by
          rw [← hlen]
          rw [getDN_append_len]
          rfl
        rw [hmap2]
        constructor
        · simp
        · have : (acc.1 ++ [(⟨fImp ψ ψ, some I0, []⟩ : ProofLine)]).getD acc.1.length
              junkLine = ⟨fImp ψ ψ, some I0, []⟩ := by
            rw [getD_append_len]
            rfl
          rw [this, hb1.1]
    · intro m hm
      rw [List.length_append, List.length_cons, List.length_nil] at hm
      by_cases hmlt : m < acc.1.length
      · exact lineOK_append _ _ _ _ _ hmlt (hok m hmlt)
      · have hm2 : m = acc.1.length := by omega
        subst hm2
        have hgd : (acc.1 ++ [(⟨fImp ψ ψ, some I0, []⟩ : ProofLine)]).getD acc.1.length
            junkLine = ⟨fImp ψ ψ, some I0, []⟩ := by
          rw [getD_append_len]
          rfl
        rw [lineOK_some_iff _ _ _ _ I0 (by rw [hgd])]
        rw [Bool.and_eq_true, Bool.and_eq_true]
        refine ⟨⟨by simp [hI0], ?_⟩, ?_⟩
        · rw [hgd]
          rfl
        · unfold ruleForLine
          rw [hgd]
          exact spec_I0 ψ
    · intro _
      constructor
      · simp
      · have : (acc.2 ++ [acc.1.length]).getD (t + 1 - 1) 0 = acc.1.length := by
          have ht2 : t + 1 - 1 = acc.2.length := by omega
          rw [ht2]
          rw [getDN_append_len]
          rfl
        rw [this]
        simp
  · rw [if_neg hb1]
    by_cases hb2 : (match (orig.getD t junkLine).rule with
        | none => true
        | some r => r.assumptions.isEmpty) = true
    · rw [if_pos hb2]
      set l := orig.getD t junkLine with hldef
      set batch : List ProofLine := [l,
        ⟨fImp l.formula (fImp ψ l.formula), some I1, []⟩,
        ⟨fImp ψ l.formula, some MP, [acc.1.length, acc.1.length + 1]⟩] with hbatch
      have hblen : (acc.1 ++ batch).length = acc.1.length + 3 := by
        rw [hbatch]
        simp
      have hget0 : (acc.1 ++ batch).getD acc.1.length junkLine = l := by
        rw [getD_append_len, hbatch]
        rfl
      have hget1 : (acc.1 ++ batch).getD (acc.1.length + 1) junkLine =
          ⟨fImp l.formula (fImp ψ l.formula), some I1, []⟩ := by
        rw [getD_append_add, hbatch]
        rfl
      have hget2 : (acc.1 ++ batch).getD (acc.1.length + 2) junkLine =
          ⟨fImp ψ l.formula, some MP, [acc.1.length, acc.1.length + 1]⟩ := by
        rw [getD_append_add, hbatch]
        rfl
      refine ⟨?_, ?_, ?_, ?_⟩
      · simp [hlen]
      · intro i hi
        by_cases hit : i < t
        · obtain ⟨hm1, hm2⟩ := hmap i hit
          rw [List.getD_append _ _ _ _ (by rw [hlen]; exact hit)]
          refine ⟨by rw [hblen]; omega, ?_⟩
          rw [List.getD_append _ _ _ _ hm1]
          exact hm2
        · have hit2 : i = t := by omega
          subst hit2
          have hmap2 : (acc.2 ++ [acc.1.length + 2]).getD i 0 = acc.1.length + 2 := by
            rw [← hlen]
            rw [getDN_append_len]
            rfl
          rw [hmap2]
          refine ⟨by rw [hblen]; omega, ?_⟩
          rw [hget2]
      · intro m hm
        rw [hblen] at hm
        by_cases hmlt : m < acc.1.length
        · exact lineOK_append _ _ _ _ _ hmlt (hok m hmlt)
        · have hm3 : m = acc.1.length ∨ m = acc.1.length + 1 ∨ m = acc.1.length + 2 := by
            omega
          rcases hm3 with hm3 | hm3 | hm3
          · subst hm3
            cases hrl : l.rule with
            | none =>
              rw [lineOK_none_iff _ _ _ _ (by rw [hget0]; exact hrl), hget0]
              rw [decide_eq_true_eq, hstmt]
              have hmem : l.formula ∈ origStmt.assumptions := by
                have := hlineok
                rw [lineOK_none_iff _ _ _ _ (by rw [← hldef]; exact hrl)] at this
                rw [decide_eq_true_eq] at this
                rw [← hldef] at this
                exact this
              rw [hassum] at hmem
              rcases List.mem_append.mp hmem with hmem | hmem
              · exact hmem
              · exfalso
                rw [List.mem_singleton] at hmem
                exact hb1 ⟨hmem, hrl⟩
            | some r =>
              have hempty : r.assumptions = [] := by
                rw [hrl] at hb2
                exact List.isEmpty_iff.mp hb2
              have hlok := hlineok
              rw [lineOK_some_iff _ _ _ _ r (by rw [← hldef]; exact hrl)] at hlok
              rw [Bool.and_eq_true, Bool.and_eq_true, decide_eq_true_eq] at hlok
              obtain ⟨⟨hrin, hrefs⟩, hspec⟩ := hlok
              have hrefsnil : l.refs = [] := by
                have hsl := spec_length _ _ hspec
                unfold ruleForLine at hsl
                rw [hempty] at hsl
                simp only [List.length_map, List.length_nil] at hsl
                rw [← hldef] at hsl
                exact List.eq_nil_of_length_eq_zero hsl
              rw [lineOK_some_iff _ _ _ _ r (by rw [hget0]; exact hrl)]
              rw [Bool.and_eq_true, Bool.and_eq_true, decide_eq_true_eq]
              refine ⟨⟨hrsub hrin, ?_⟩, ?_⟩
              · rw [hget0, hrefsnil]
                rfl
              · unfold ruleForLine
                rw [hget0, hrefsnil]
                unfold ruleForLine at hspec
                rw [← hldef, hrefsnil] at hspec
                simp only [List.map_nil] at hspec ⊢
                exact hspec
          · subst hm3
            rw [lineOK_some_iff _ _ _ _ I1 (by rw [hget1])]
            rw [Bool.and_eq_true, Bool.and_eq_true, decide_eq_true_eq]
            refine ⟨⟨hI1, by rw [hget1]; rfl⟩, ?_⟩
            unfold ruleForLine
            rw [hget1]
            exact spec_I1 l.formula ψ
          · subst hm3
            rw [lineOK_some_iff _ _ _ _ MP (by rw [hget2])]
            rw [Bool.and_eq_true, Bool.and_eq_true, decide_eq_true_eq]
            refine ⟨⟨hMP, ?_⟩, ?_⟩
            · rw [hget2]
              simp only [List.all_cons, List.all_nil, Bool.and_true]
              rw [Bool.and_eq_true, decide_eq_true_eq, decide_eq_true_eq]
              omega
            · unfold ruleForLine
              rw [hget2]
              simp only [List.map_cons, List.map_nil]
              rw [hget0, hget1]
              exact spec_MP l.formula (fImp ψ l.formula)
      · intro _
        refine ⟨by simp, ?_⟩
        have hmap3 : (acc.2 ++ [acc.1.length + 2]).getD (t + 1 - 1) 0 =
            acc.1.length + 2 := by
          have ht2 : t + 1 - 1 = acc.2.length := by omega
          rw [ht2]
          rw [getDN_append_len]
          rfl
        rw [hmap3, hblen]
        omega
    · rw [if_neg hb2]
      obtain ⟨r, hrl⟩ : ∃ r, (orig.getD t junkLine).rule = some r := by
        cases hrl : (orig.getD t junkLine).rule with
        | none => exact absurd (by rw [hrl] : (match (orig.getD t junkLine).rule with
            | none => true
            | some r => r.assumptions.isEmpty) = true) hb2
        | some r => exact ⟨r, rfl⟩
      have hlok := hlineok
      rw [lineOK_some_iff _ _ _ _ r hrl] at hlok
      rw [Bool.and_eq_true, Bool.and_eq_true, decide_eq_true_eq] at hlok
      obtain ⟨⟨hrin, hrefs⟩, hspec⟩ := hlok
      have hrMP : r = MP := by
        rcases hr r hrin with h | h
        · exact h
        · exfalso
          apply hb2
          rw [hrl]
          show r.assumptions.isEmpty = true
          rw [h]
          rfl
      subst hrMP
      have hrlen : (orig.getD t junkLine).refs.length = 2 := by
        have hsl := spec_length _ _ hspec
        unfold ruleForLine at hsl
        simp only [List.length_map] at hsl
        exact hsl
      obtain ⟨j0, k0, hrefs2⟩ := List.length_eq_two.mp hrlen
      have hj0t : j0 < t := by
        rw [hrefs2, List.all_cons, Bool.and_eq_true, decide_eq_true_eq] at hrefs
        exact hrefs.1
      have hk0t : k0 < t := by
        rw [hrefs2] at hrefs
        simp only [List.all_cons, List.all_nil, Bool.and_true, Bool.and_eq_true,
          decide_eq_true_eq] at hrefs
        exact hrefs.2
      obtain ⟨hmj1, hmj2⟩ := hmap j0 hj0t
      obtain ⟨hmk1, hmk2⟩ := hmap k0 hk0t
      have hkform : (orig.getD k0 junkLine).formula =
          fImp (orig.getD j0 junkLine).formula (orig.getD t junkLine).formula := by
        apply spec_MP_inv
        unfold ruleForLine at hspec
        rw [hrefs2] at hspec
        simp only [List.map_cons, List.map_nil] at hspec
        exact hspec
      rw [hrefs2]
      simp only [List.getD_cons_zero, List.getD_cons_succ]
      set pj := (orig.getD j0 junkLine).formula with hpj
      set pi := (orig.getD t junkLine).formula with hpi
      set batch : List ProofLine := [⟨fImp (fImp ψ (fImp pj pi))
          (fImp (fImp ψ pj) (fImp ψ pi)), some D, []⟩,
        ⟨fImp (fImp ψ pj) (fImp ψ pi), some MP, [acc.2.getD k0 0, acc.1.length]⟩,
        ⟨fImp ψ pi, some MP, [acc.2.getD j0 0, acc.1.length + 1]⟩] with hbatch
      have hblen : (acc.1 ++ batch).length = acc.1.length + 3 := by
        rw [hbatch]
        simp
      have hget0 : (acc.1 ++ batch).getD acc.1.length junkLine =
          ⟨fImp (fImp ψ (fImp pj pi)) (fImp (fImp ψ pj) (fImp ψ pi)), some D, []⟩ := by
        rw [getD_append_len, hbatch]
        rfl
      have hget1 : (acc.1 ++ batch).getD (acc.1.length + 1) junkLine =
          ⟨fImp (fImp ψ pj) (fImp ψ pi), some MP,
            [acc.2.getD k0 0, acc.1.length]⟩ := by
        rw [getD_append_add, hbatch]
        rfl
      have hget2 : (acc.1 ++ batch).getD (acc.1.length + 2) junkLine =
          ⟨fImp ψ pi, some MP, [acc.2.getD j0 0, acc.1.length + 1]⟩ := by
        rw [getD_append_add, hbatch]
        rfl
      have hgetj : (acc.1 ++ batch).getD (acc.2.getD j0 0) junkLine =
          acc.1.getD (acc.2.getD j0 0) junkLine := List.getD_append _ _ _ _ hmj1
      have hgetk : (acc.1 ++ batch).getD (acc.2.getD k0 0) junkLine =
          acc.1.getD (acc.2.getD k0 0) junkLine := List.getD_append _ _ _ _ hmk1
      refine ⟨?_, ?_, ?_, ?_⟩
      · simp [hlen]
      · intro i hi
        by_cases hit : i < t
        · obtain ⟨hm1, hm2⟩ := hmap i hit
          rw [List.getD_append _ _ _ _ (by rw [hlen]; exact hit)]
          refine ⟨by rw [hblen]; omega, ?_⟩
          rw [List.getD_append _ _ _ _ hm1]
          exact hm2
        · have hit2 : i = t := by omega
          subst hit2
          have hmap2 : (acc.2 ++ [acc.1.length + 2]).getD i 0 = acc.1.length + 2 := by
            rw [← hlen]
            rw [getDN_append_len]
            rfl
          rw [hmap2]
          refine ⟨by rw [hblen]; omega, ?_⟩
          rw [hget2]
      · intro m hm
        rw [hblen] at hm
        by_cases hmlt : m < acc.1.length
        · exact lineOK_append _ _ _ _ _ hmlt (hok m hmlt)
        · have hm3 : m = acc.1.length ∨ m = acc.1.length + 1 ∨ m = acc.1.length + 2 := by
            omega
          rcases hm3 with hm3 | hm3 | hm3
          · subst hm3
            rw [lineOK_some_iff _ _ _ _ D (by rw [hget0])]
            rw [Bool.and_eq_true, Bool.and_eq_true, decide_eq_true_eq]
            refine ⟨⟨hD, by rw [hget0]; rfl⟩, ?_⟩
            unfold ruleForLine
            rw [hget0]
            exact spec_D ψ pj pi
          · subst hm3
            rw [lineOK_some_iff _ _ _ _ MP (by rw [hget1])]
            rw [Bool.and_eq_true, Bool.and_eq_true, decide_eq_true_eq]
            refine ⟨⟨hMP, ?_⟩, ?_⟩
            · rw [hget1]
              simp only [List.all_cons, List.all_nil, Bool.and_true]
              rw [Bool.and_eq_true, decide_eq_true_eq, decide_eq_true_eq]
              omega
            · unfold ruleForLine
              rw [hget1]
              simp only [List.map_cons, List.map_nil]
              rw [hgetk, hget0, hmk2, hkform]
              exact spec_MP (fImp ψ (fImp pj pi)) (fImp (fImp ψ pj) (fImp ψ pi))
          · subst hm3
            rw [lineOK_some_iff _ _ _ _ MP (by rw [hget2])]
            rw [Bool.and_eq_true, Bool.and_eq_true, decide_eq_true_eq]
            refine ⟨⟨hMP, ?_⟩, ?_⟩
            · rw [hget2]
              simp only [List.all_cons, List.all_nil, Bool.and_true]
              rw [Bool.and_eq_true, decide_eq_true_eq, decide_eq_true_eq]
              omega
            · unfold ruleForLine
              rw [hget2]
              simp only [List.map_cons, List.map_nil]
              rw [hgetj, hget1, hmj2]
              exact spec_MP (fImp ψ pj) (fImp ψ pi)
      · intro _
        refine ⟨by simp, ?_⟩
        have hmap3 : (acc.2 ++ [acc.1.length + 2]).getD (t + 1 - 1) 0 =
            acc.1.length + 2 := by
          have ht2 : t + 1 - 1 = acc.2.length := by omega
          rw [ht2]
          rw [getDN_append_len]
          rfl
        rw [hmap3, hblen]
        omega

lemma dropLast_append_getLastD {α : Type} (l : List α) (d : α) (h : l ≠ []) :
    l.dropLast ++ [l.getLastD d] = l := by
  have h1 : l.getLastD d = l.getLast h := by
    rw [List.getLastD_eq_getLast?, List.getLast?_eq_getLast l h]
    rfl
  rw [h1]
  exact List.dropLast_append_getLast h

lemma raFold_inv
    (stmt : InferenceRule) (rules : Finset InferenceRule)
    (ψ : Formula) (γ : List Formula)
    (orig : List ProofLine)
    (origStmt : InferenceRule) (origRules : Finset InferenceRule)
    (hstmt : stmt.assumptions = γ)
    (hassum : origStmt.assumptions = γ ++ [ψ])
    (hrsub : origRules ⊆ rules)
    (hMP : MP ∈ rules) (hI0 : I0 ∈ rules) (hI1 : I1 ∈ rules) (hD : D ∈ rules)
    (hr : ∀ r ∈ origRules, r = MP ∨ r.assumptions = [])
    (hall : ∀ i, i < orig.length → lineOK origStmt origRules orig i = true) :
    ∀ (rest : List ProofLine) (t : Nat) (acc : List ProofLine × List Nat),
      orig.drop t = rest → t ≤ orig.length → RAInv stmt rules ψ orig t acc →
      RAInv stmt rules ψ orig orig.length (List.foldl (raStep ψ orig) acc rest) := by
  intro rest
  induction rest with
  | nil =>
    intro t acc hdrop ht hinv
    have hlen : orig.length ≤ t := List.drop_eq_nil_iff.mp hdrop
    have : t = orig.length := by omega
    subst this
    exact hinv
  | cons l rest ih =>
    intro t acc hdrop ht hinv
    have hlendrop : (orig.drop t).length = orig.length - t := List.length_drop t orig
    rw [hdrop] at hlendrop
    have htlt : t < orig.length := by
      rw [List.length_cons] at hlendrop
      omega
    have hl : orig.getD t junkLine = l := by
      have h1 : (orig.drop t)[0]? = orig[t + 0]? := List.getElem?_drop orig t 0
      rw [hdrop] at h1
      simp only [List.getElem?_cons_zero, Nat.add_zero] at h1
      rw [List.getD_eq_getD_get?, List.get?_eq_getElem?, ← h1]
      rfl
    have hstep := raStep_inv stmt rules ψ γ orig origStmt origRules hstmt hassum
      hrsub hMP hI0 hI1 hD hr t htlt (hall t htlt) acc hinv
    rw [hl] at hstep
    have hdrop2 : orig.drop (t + 1) = rest := by
      have : orig.drop (t + 1) = (orig.drop t).drop 1 := by
        rw [List.drop_drop]
      rw [this, hdrop]
      rfl
    rw [List.foldl_cons]
    exact ih (t + 1) (raStep ψ orig acc l) hdrop2 (by omega) hstep

lemma removeAssumption_full (p : Proof)
    (hv : p.isValid = true)
    (hn : p.statement.assumptions ≠ [])
    (hr : ∀ r ∈ p.rules, r = MP ∨ r.assumptions = []) :
    (removeAssumption p).isValid = true ∧
    (removeAssumption p).statement.assumptions = p.statement.assumptions.dropLast ∧
    (removeAssumption p).statement.conclusion =
      fImp (p.statement.assumptions.getLastD (Formula.const false))
        p.statement.conclusion ∧
    (removeAssumption p).rules = p.rules ∪ {MP, I0, I1, D} := by
  set ψ := p.statement.assumptions.getLastD (Formula.const false) with hψ
  set γ := p.statement.assumptions.dropLast with hγ
  set newStmt : InferenceRule := ⟨γ, fImp ψ p.statement.conclusion⟩ with hnewStmt
  set newRules : Finset InferenceRule := p.rules ∪ {MP, I0, I1, D} with hnewRules
  have hra : removeAssumption p =
      ⟨newStmt, newRules, (List.foldl (raStep ψ p.lines) ([], []) p.lines).1⟩ := rfl
  obtain ⟨hne, hlastf, hall⟩ := (isValid_iff p).mp hv
  have hsplit : p.statement.assumptions = γ ++ [ψ] :=
    (dropLast_append_getLastD p.statement.assumptions (Formula.const false) hn).symm
  have hMPin : MP ∈ newRules := Finset.mem_union_right _ (by decide)
  have hI0in : I0 ∈ newRules := Finset.mem_union_right _ (by decide)
  have hI1in : I1 ∈ newRules := Finset.mem_union_right _ (by decide)
  have hDin : D ∈ newRules := Finset.mem_union_right _ (by decide)
  have hsub : p.rules ⊆ newRules := Finset.subset_union_left
  have hinv0 : RAInv newStmt newRules ψ p.lines 0 ([], []) := by
    refine ⟨rfl, ?_, ?_, ?_⟩
    · intro i hi
      exact absurd hi (Nat.not_lt_zero i)
    · intro m hm
      exact absurd hm (Nat.not_lt_zero m)
    · intro h0
      exact absurd rfl h0
  have hfin := raFold_inv newStmt newRules ψ γ p.lines p.statement p.rules rfl
    hsplit hsub hMPin hI0in hI1in hDin hr hall p.lines 0 ([], [])
    (List.drop_zero p.lines) (Nat.zero_le _) hinv0
  obtain ⟨flen, fmap, fok, flast⟩ := hfin
  have hT : p.lines.length ≠ 0 := by
    intro h0
    exact hne (List.eq_nil_of_length_eq_zero h0)
  obtain ⟨fne, flastmap⟩ := flast hT
  have hTm1 : p.lines.length - 1 < p.lines.length := by omega
  obtain ⟨fm1, fm2⟩ := fmap (p.lines.length - 1) hTm1
  rw [flastmap] at fm2
  have horiglast : (p.lines.getD (p.lines.length - 1) junkLine).formula =
      p.statement.conclusion := by
    rw [← getLastD_eq_getD_pred p.lines junkLine hne]
    exact hlastf
  rw [horiglast] at fm2
  refine ⟨?_, rfl, rfl, rfl⟩
  rw [hra]
  rw [isValid_iff]
  refine ⟨fne, ?_, fok⟩
  rw [getLastD_eq_getD_pred _ junkLine fne]
  exact fm2

/-- C1: for a valid proof with assumptions `(g1,...,gn, psi)`, conclusion `C`,
and rules all assumptionless except possibly MP, `remove_assumption` returns a
valid proof with assumptions `(g1,...,gn)`, conclusion `psi -> C`, and rule
set equal to the original rule set united with `{MP, I0, I1, D}`. -/
theorem removeAssumption_spec (p : Proof)
    (hv : p.isValid = true)
    (hn : p.statement.assumptions ≠ [])
    (hr : ∀ r ∈ p.rules, r = MP ∨ r.assumptions = []) :
    (removeAssumption p).isValid = true ∧
    (removeAssumption p).statement.assumptions = p.statement.assumptions.dropLast ∧
    (removeAssumption p).statement.conclusion =
      fImp (p.statement.assumptions.getLastD (Formula.const false))
        p.statement.conclusion ∧
    (removeAssumption p).rules = p.rules ∪ {MP, I0, I1, D} :=
  removeAssumption_full p hv hn hr

theorem removeAssumption_spec_witness :
    (removeAssumption exAssumpQ).isValid = true ∧
    (removeAssumption exAssumpQ).statement.assumptions =
      exAssumpQ.statement.assumptions.dropLast ∧
    (removeAssumption exAssumpQ).statement.conclusion =
      fImp (exAssumpQ.statement.assumptions.getLastD (Formula.const false))
        exAssumpQ.statement.conclusion ∧
    (removeAssumption exAssumpQ).rules = exAssumpQ.rules ∪ {MP, I0, I1, D} :=
  removeAssumption_spec exAssumpQ (by decide) (by decide) (by decide)

lemma lineOK_congr_stmt (stmt stmt2 : InferenceRule) (rules : Finset InferenceRule)
    (lines : List ProofLine) (i : Nat) (h : stmt.assumptions = stmt2.assumptions) :
    lineOK stmt rules lines i = lineOK stmt2 rules lines i := by
  unfold lineOK
  rw [h]

lemma proveByWayOfContradiction_full (p : Proof) (f : Formula)
    (hv : p.isValid = true)
    (hconc : p.statement.conclusion =
      Formula.neg (fImp (Formula.var "p") (Formula.var "p")))
    (hn : p.statement.assumptions ≠ [])
    (hneg : p.statement.assumptions.getLastD (Formula.const false) = Formula.neg f)
    (hr : ∀ r ∈ p.rules, r = MP ∨ r.assumptions = []) :
    (proveByWayOfContradiction p).isValid = true ∧
    (proveByWayOfContradiction p).statement.assumptions =
      p.statement.assumptions.dropLast ∧
    (proveByWayOfContradiction p).statement.conclusion = f ∧
    (proveByWayOfContradiction p).rules = p.rules ∪ {MP, I0, I1, D, N} ∧
    (proveByWayOfContradiction p).lines = (removeAssumption p).lines ++
      [⟨fImp (fImp (Formula.neg f)
          (Formula.neg (fImp (Formula.var "p") (Formula.var "p"))))
          (fImp (fImp (Formula.var "p") (Formula.var "p")) f), some N, []⟩,
       ⟨fImp (fImp (Formula.var "p") (Formula.var "p")) f, some MP,
         [(removeAssumption p).lines.length - 1, (removeAssumption p).lines.length]⟩,
       ⟨fImp (Formula.var "p") (Formula.var "p"), some I0, []⟩,
       ⟨f, some MP,
         [(removeAssumption p).lines.length + 2,
          (removeAssumption p).lines.length + 1]⟩] := by
  obtain ⟨qv, qassum, qconc, qrules⟩ := removeAssumption_full p hv hn hr
  set fpp := fImp (Formula.var "p") (Formula.var "p") with hfpp
  set q := removeAssumption p with hq
  have hphi : (match p.statement.assumptions.getLastD (Formula.const false) with
      | Formula.neg g => g
      | _ => Formula.const false) = f := by
    rw [hneg]
  have hpb : proveByWayOfContradiction p =
      ⟨⟨q.statement.assumptions, f⟩, q.rules ∪ {MP, I0, I1, D, N}, q.lines ++
        [⟨fImp (fImp (Formula.neg f) (Formula.neg fpp)) (fImp fpp f), some N, []⟩,
         ⟨fImp fpp f, some MP, [q.lines.length - 1, q.lines.length]⟩,
         ⟨fpp, some I0, []⟩,
         ⟨f, some MP, [q.lines.length + 2, q.lines.length + 1]⟩]⟩ := by
    unfold proveByWayOfContradiction
    rw [← hq, hphi]
  obtain ⟨qne, qlastf, qall⟩ := (isValid_iff q).mp qv
  have hql : 1 ≤ q.lines.length := List.length_pos.mpr qne
  set batch : List ProofLine :=
    [⟨fImp (fImp (Formula.neg f) (Formula.neg fpp)) (fImp fpp f), some N, []⟩,
     ⟨fImp fpp f, some MP, [q.lines.length - 1, q.lines.length]⟩,
     ⟨fpp, some I0, []⟩,
     ⟨f, some MP, [q.lines.length + 2, q.lines.length + 1]⟩] with hbatch
  set newStmt : InferenceRule := ⟨q.statement.assumptions, f⟩ with hnewStmt
  set newRules : Finset InferenceRule := q.rules ∪ {MP, I0, I1, D, N} with hnewRules
  have hsub : q.rules ⊆ newRules := by
    rw [hnewRules]
    exact Finset.subset_union_left
  have hMPin : MP ∈ newRules := by
    rw [hnewRules]
    exact Finset.mem_union_right _ (by decide)
  have hI0in : I0 ∈ newRules := by
    rw [hnewRules]
    exact Finset.mem_union_right _ (by decide)
  have hNin : N ∈ newRules := by
    rw [hnewRules]
    exact Finset.mem_union_right _ (by decide)
  have hblen : (q.lines ++ batch).length = q.lines.length + 4 := by
    rw [hbatch]
    simp
  have hget0 : (q.lines ++ batch).getD q.lines.length junkLine =
      ⟨fImp (fImp (Formula.neg f) (Formula.neg fpp)) (fImp fpp f), some N, []⟩ := by
    rw [getD_append_len, hbatch]
    rfl
  have hget1 : (q.lines ++ batch).getD (q.lines.length + 1) junkLine =
      ⟨fImp fpp f, some MP, [q.lines.length - 1, q.lines.length]⟩ := by
    rw [getD_append_add, hbatch]
    rfl
  have hget2 : (q.lines ++ batch).getD (q.lines.length + 2) junkLine =
      ⟨fpp, some I0, []⟩ := by
    rw [getD_append_add, hbatch]
    rfl
  have hget3 : (q.lines ++ batch).getD (q.lines.length + 3) junkLine =
      ⟨f, some MP, [q.lines.length + 2, q.lines.length + 1]⟩ := by
    rw [getD_append_add, hbatch]
    rfl
  have hgetlast : (q.lines ++ batch).getD (q.lines.length - 1) junkLine =
      q.lines.getD (q.lines.length - 1) junkLine :=
    List.getD_append _ _ _ _ (by omega)
  have hlastform : (q.lines.getD (q.lines.length - 1) junkLine).formula =
      fImp (Formula.neg f) (Formula.neg fpp) := by
    rw [← getLastD_eq_getD_pred q.lines junkLine qne, qlastf, qconc, hneg, hconc]
  have hvalid : (proveByWayOfContradiction p).isValid = true := by
    rw [hpb, isValid_iff]
    refine ⟨by simp [hbatch], ?_, ?_⟩
    · show ((q.lines ++ batch).getLastD junkLine).formula = f
      have hne2 : q.lines ++ batch ≠ [] := by simp [hbatch]
      rw [getLastD_eq_getD_pred _ junkLine hne2, hblen]
      have h43 : q.lines.length + 4 - 1 = q.lines.length + 3 := by omega
      rw [h43, hget3]
    · intro m hm
      rw [hblen] at hm
      by_cases hmlt : m < q.lines.length
      · have h1 := qall m hmlt
        rw [lineOK_congr_stmt q.statement newStmt q.rules q.lines m
          (by rw [hnewStmt])] at h1
        exact lineOK_append newStmt newRules q.lines batch m hmlt
          (lineOK_mono_rules newStmt q.rules newRules hsub q.lines m h1)
      · have hm4 : m = q.lines.length ∨ m = q.lines.length + 1 ∨
            m = q.lines.length + 2 ∨ m = q.lines.length + 3 := by omega
        rcases hm4 with hm4 | hm4 | hm4 | hm4
        · subst hm4
          rw [lineOK_some_iff _ _ _ _ N (by rw [hget0])]
          rw [Bool.and_eq_true, Bool.and_eq_true, decide_eq_true_eq]
          refine ⟨⟨hNin, by rw [hget0]; rfl⟩, ?_⟩
          unfold ruleForLine
          rw [hget0]
          exact spec_N f fpp
        · subst hm4
          rw [lineOK_some_iff _ _ _ _ MP (by rw [hget1])]
          rw [Bool.and_eq_true, Bool.and_eq_true, decide_eq_true_eq]
          refine ⟨⟨hMPin, ?_⟩, ?_⟩
          · rw [hget1]
            simp only [List.all_cons, List.all_nil, Bool.and_true]
            rw [Bool.and_eq_true, decide_eq_true_eq, decide_eq_true_eq]
            omega
          · unfold ruleForLine
            rw [hget1]
            simp only [List.map_cons, List.map_nil]
            rw [hgetlast, hget0, hlastform]
            exact spec_MP (fImp (Formula.neg f) (Formula.neg fpp)) (fImp fpp f)
        · subst hm4
          rw [lineOK_some_iff _ _ _ _ I0 (by rw [hget2])]
          rw [Bool.and_eq_true, Bool.and_eq_true, decide_eq_true_eq]
          refine ⟨⟨hI0in, by rw [hget2]; rfl⟩, ?_⟩
          unfold ruleForLine
          rw [hget2, hfpp]
          exact spec_I0 (Formula.var "p")
        · subst hm4
          rw [lineOK_some_iff _ _ _ _ MP (by rw [hget3])]
          rw [Bool.and_eq_true, Bool.and_eq_true, decide_eq_true_eq]
          refine ⟨⟨hMPin, ?_⟩, ?_⟩
          · rw [hget3]
            simp only [List.all_cons, List.all_nil, Bool.and_true]
            rw [Bool.and_eq_true, decide_eq_true_eq, decide_eq_true_eq]
            omega
          · unfold ruleForLine
            rw [hget3]
            simp only [List.map_cons, List.map_nil]
            rw [hget2, hget1]
            exact spec_MP fpp f
  refine ⟨hvalid, ?_, ?_, ?_, ?_⟩
  · rw [hpb, ← qassum]
  · rw [hpb]
  · rw [hpb]
    show newRules = p.rules ∪ {MP, I0, I1, D, N}
    rw [hnewRules, qrules]
    apply Finset.ext
    intro r
    simp only [Finset.mem_union, Finset.mem_insert, Finset.mem_singleton]
    tauto
  · rw [hpb]

/-- C4: for a valid proof of `~(p->p)` whose last assumption is `~formula`
and whose rules are assumptionless except possibly MP,
`prove_by_way_of_contradiction` returns a valid proof of `formula` from the
same assumptions except the last, with rule set adding `MP, I0, I1, D, N`,
built by applying `remove_assumption` and appending the specialized
double-negation axiom, an MP step, a reflexivity line `p->p`, and a final MP
step deriving `formula`. -/
theorem proveByWayOfContradiction_spec (p : Proof) (f : Formula)
    (hv : p.isValid = true)
    (hconc : p.statement.conclusion =
      Formula.neg (fImp (Formula.var "p") (Formula.var "p")))
    (hn : p.statement.assumptions ≠ [])
    (hneg : p.statement.assumptions.getLastD (Formula.const false) = Formula.neg f)
    (hr : ∀ r ∈ p.rules, r = MP ∨ r.assumptions = []) :
    (proveByWayOfContradiction p).isValid = true ∧
    (proveByWayOfContradiction p).statement.assumptions =
      p.statement.assumptions.dropLast ∧
    (proveByWayOfContradiction p).statement.conclusion = f ∧
    (proveByWayOfContradiction p).rules = p.rules ∪ {MP, I0, I1, D, N} ∧
    (proveByWayOfContradiction p).lines = (removeAssumption p).lines ++
      [⟨fImp (fImp (Formula.neg f)
          (Formula.neg (fImp (Formula.var "p") (Formula.var "p"))))
          (fImp (fImp (Formula.var "p") (Formula.var "p")) f), some N, []⟩,
       ⟨fImp (fImp (Formula.var "p") (Formula.var "p")) f, some MP,
         [(removeAssumption p).lines.length - 1, (removeAssumption p).lines.length]⟩,
       ⟨fImp (Formula.var "p") (Formula.var "p"), some I0, []⟩,
       ⟨f, some MP,
         [(removeAssumption p).lines.length + 2,
          (removeAssumption p).lines.length + 1]⟩] :=
  proveByWayOfContradiction_full p f hv hconc hn hneg hr

theorem proveByWayOfContradiction_spec_witness :
    (proveByWayOfContradiction exNegQProof).isValid = true ∧
    (proveByWayOfContradiction exNegQProof).statement.assumptions = [] ∧
    (proveByWayOfContradiction exNegQProof).statement.conclusion =
      Formula.var "q" ∧
    (proveByWayOfContradiction exNegQProof).rules =
      exNegQProof.rules ∪ {MP, I0, I1, D, N} := by
  have h := proveByWayOfContradiction_spec exNegQProof (Formula.var "q")
    (by decide) (by decide) (by decide) (by decide) (by decide)
  exact ⟨h.1, h.2.1, h.2.2.1, h.2.2.2.1⟩

lemma refsOK_of_parts (lines : List ProofLine)
    (h : ∀ i, i < lines.length → (lines.getD i junkLine).rule ≠ none →
      ∀ j ∈ (lines.getD i junkLine).refs, j < i) :
    refsOK lines = true := by
  unfold refsOK
  rw [List.all_eq_true]
  intro i hi
  rw [List.mem_range] at hi
  cases hrule : (lines.getD i junkLine).rule with
  | none => rfl
  | some r =>
    rw [List.all_eq_true]
    intro j hj
    rw [decide_eq_true_eq]
    exact h i hi (by rw [hrule]; exact Option.some_ne_none r) j hj

lemma valid_refs_lt (p : Proof) (hv : p.isValid = true) (i : Nat)
    (hi : i < p.lines.length) (hrule : (p.lines.getD i junkLine).rule ≠ none) :
    ∀ j ∈ (p.lines.getD i junkLine).refs, j < i := by
  obtain ⟨r, hr2⟩ := Option.ne_none_iff_exists'.mp hrule
  obtain ⟨_, _, hall⟩ := (isValid_iff p).mp hv
  have hok := hall i hi
  rw [lineOK_some_iff _ _ _ _ r hr2] at hok
  simp only [Bool.and_eq_true, List.all_eq_true, decide_eq_true_eq] at hok
  exact hok.1.2

lemma proveCorollary_refsOK (p : Proof) (c : Formula) (cond : InferenceRule)
    (hv : p.isValid = true) :
    refsOK (proveCorollary p c cond).lines = true := by
  have hlines : (proveCorollary p c cond).lines =
      p.lines ++ [⟨fImp p.statement.conclusion c, some cond, []⟩,
        ⟨c, some MP, [p.lines.length + 1 - 2, p.lines.length + 1 - 1]⟩] := by
    show (p.lines ++ [_]) ++ [(⟨c, some MP, [_, _]⟩ : ProofLine)] = _
    have h1 : (p.lines ++ [(⟨fImp p.statement.conclusion c, some cond, []⟩ :
        ProofLine)]).length = p.lines.length + 1 := by simp
    rw [List.append_assoc, h1]
    rfl
  rw [hlines]
  apply refsOK_of_parts
  intro i hi hrule j hj
  rw [List.length_append] at hi
  by_cases himain : i < p.lines.length
  · have hgd : (p.lines ++ [(⟨fImp p.statement.conclusion c, some cond, []⟩ : ProofLine),
        (⟨c, some MP, [p.lines.length + 1 - 2, p.lines.length + 1 - 1]⟩ : ProofLine)]).getD
        i junkLine = p.lines.getD i junkLine := List.getD_append _ _ _ _ himain
    rw [hgd] at hrule hj
    exact valid_refs_lt p hv i himain hrule j hj
  · have hi2 : i = p.lines.length ∨ i = p.lines.length + 1 := by
      simp only [List.length_cons, List.length_nil] at hi
      omega
    rcases hi2 with hi2 | hi2
    · subst hi2
      rw [getD_append_len] at hj
      simp only [List.getD_cons_zero] at hj
      exact absurd hj (List.not_mem_nil j)
    · subst hi2
      rw [getD_append_add] at hj
      simp only [List.getD_cons_succ, List.getD_cons_zero] at hj
      rcases List.mem_cons.mp hj with h | h
      · omega
      · rcases List.mem_cons.mp h with h | h
        · omega
        · exact absurd h (List.not_mem_nil j)

lemma getD_map_shift (n1 : Nat) (l : List ProofLine) (k : Nat) (hk : k < l.length) :
    (List.map (shiftLine n1) l).getD k junkLine = shiftLine n1 (l.getD k junkLine) := by
  rw [List.getD_eq_getElem _ _ (by simpa using hk), List.getD_eq_getElem _ _ hk,
    List.getElem_map]

lemma combineProofs_refsOK (p1 p2 : Proof) (c : Formula) (dc : InferenceRule)
    (hv1 : p1.isValid = true) (hv2 : p2.isValid = true) :
    refsOK (combineProofs p1 p2 c dc).lines = true := by
  rw [combineProofs_lines_eq]
  apply refsOK_of_parts
  intro i hi hrule j hj
  have hAM : (p1.lines ++ List.map (shiftLine p1.lines.length) p2.lines).length =
      p1.lines.length + p2.lines.length := by
    simp
  rw [List.length_append, hAM] at hi
  by_cases hi1 : i < p1.lines.length
  · have hgd : ((p1.lines ++ List.map (shiftLine p1.lines.length) p2.lines) ++
        [(⟨fImp p1.statement.conclusion (fImp p2.statement.conclusion c),
          some dc, []⟩ : ProofLine),
         ⟨fImp p2.statement.conclusion c, some MP,
           [p1.lines.length - 1, p1.lines.length + p2.lines.length]⟩,
         ⟨c, some MP, [p1.lines.length + p2.lines.length - 1,
           p1.lines.length + p2.lines.length + 1]⟩]).getD i junkLine =
        p1.lines.getD i junkLine := by
      rw [List.getD_append _ _ _ _ (by rw [hAM]; omega),
        List.getD_append _ _ _ _ hi1]
    rw [hgd] at hrule hj
    exact valid_refs_lt p1 hv1 i hi1 hrule j hj
  · by_cases hi2 : i < p1.lines.length + p2.lines.length
    · have hk : i - p1.lines.length < p2.lines.length := by omega
      have hgd : ((p1.lines ++ List.map (shiftLine p1.lines.length) p2.lines) ++
          [(⟨fImp p1.statement.conclusion (fImp p2.statement.conclusion c),
            some dc, []⟩ : ProofLine),
           ⟨fImp p2.statement.conclusion c, some MP,
             [p1.lines.length - 1, p1.lines.length + p2.lines.length]⟩,
           ⟨c, some MP, [p1.lines.length + p2.lines.length - 1,
             p1.lines.length + p2.lines.length + 1]⟩]).getD i junkLine =
          shiftLine p1.lines.length (p2.lines.getD (i - p1.lines.length) junkLine) := by
        rw [List.getD_append _ _ _ _ (by rw [hAM]; omega),
          List.getD_append_right _ _ _ _ (by omega),
          getD_map_shift _ _ _ hk]
      rw [hgd] at hrule hj
      cases hr2 : (p2.lines.getD (i - p1.lines.length) junkLine).rule with
      | none =>
        exfalso
        apply hrule
        unfold shiftLine
        rw [hr2]
        exact hr2
      | some r =>
        have hshift : shiftLine p1.lines.length
            (p2.lines.getD (i - p1.lines.length) junkLine) =
            ⟨(p2.lines.getD (i - p1.lines.length) junkLine).formula, some r,
             List.map (fun a => a + p1.lines.length)
               (p2.lines.getD (i - p1.lines.length) junkLine).refs⟩ := by
          unfold shiftLine
          rw [hr2]
        rw [hshift] at hj
        simp only [List.mem_map] at hj
        obtain ⟨j0, hj0, rfl⟩ := hj
        have := valid_refs_lt p2 hv2 (i - p1.lines.length) hk
          (by rw [hr2]; exact Option.some_ne_none r) j0 hj0
        omega
    · set tl : List ProofLine :=
        [⟨fImp p1.statement.conclusion (fImp p2.statement.conclusion c), some dc, []⟩,
         ⟨fImp p2.statement.conclusion c, some MP,
           [p1.lines.length - 1, p1.lines.length + p2.lines.length]⟩,
         ⟨c, some MP, [p1.lines.length + p2.lines.length - 1,
           p1.lines.length + p2.lines.length + 1]⟩] with htl
      have hi3 : i = p1.lines.length + p2.lines.length ∨
          i = p1.lines.length + p2.lines.length + 1 ∨
          i = p1.lines.length + p2.lines.length + 2 := by
        rw [htl] at hi
        simp only [List.length_cons, List.length_nil] at hi
        omega
      have hgd : ∀ k, ((p1.lines ++ List.map (shiftLine p1.lines.length) p2.lines) ++
          tl).getD (p1.lines.length + p2.lines.length + k) junkLine =
          tl.getD k junkLine := by
        intro k
        rw [← hAM]
        exact getD_append_add _ _ k
      rcases hi3 with hi3 | hi3 | hi3
      · subst hi3
        have hgd0 := hgd 0
        rw [Nat.add_zero] at hgd0
        rw [hgd0, htl] at hj
        simp only [List.getD_cons_zero] at hj
        exact absurd hj (List.not_mem_nil j)
      · subst hi3
        rw [hgd 1, htl] at hj
        simp only [List.getD_cons_succ, List.getD_cons_zero] at hj
        rcases List.mem_cons.mp hj with h | h
        · omega
        · rcases List.mem_cons.mp h with h | h
          · omega
          · exact absurd h (List.not_mem_nil j)
      · subst hi3
        rw [hgd 2, htl] at hj
        simp only [List.getD_cons_succ, List.getD_cons_zero] at hj
        rcases List.mem_cons.mp hj with h | h
        · omega
        · rcases List.mem_cons.mp h with h | h
          · omega
          · exact absurd h (List.not_mem_nil j)

/-- C2: for each deduction-engine operation, under its stated preconditions,
every derived line of the returned proof references only line indices
strictly below its own index. -/
theorem deduction_engine_refsOK :
    (∀ (p : Proof) (c : Formula) (cond : InferenceRule), p.isValid = true →
      isSpecializationOf ⟨[], fImp p.statement.conclusion c⟩ cond = true →
      refsOK (proveCorollary p c cond).lines = true) ∧
    (∀ (p1 p2 : Proof) (c : Formula) (dc : InferenceRule),
      p1.isValid = true → p2.isValid = true →
      p1.statement.assumptions = p2.statement.assumptions →
      p1.rules = p2.rules →
      isSpecializationOf
        ⟨[], fImp p1.statement.conclusion (fImp p2.statement.conclusion c)⟩
        dc = true →
      refsOK (combineProofs p1 p2 c dc).lines = true) ∧
    (∀ p : Proof, p.isValid = true → p.statement.assumptions ≠ [] →
      (∀ r ∈ p.rules, r = MP ∨ r.assumptions = []) →
      refsOK (removeAssumption p).lines = true) ∧
    (∀ (pa pn : Proof) (c : Formula), pa.isValid = true → pn.isValid = true →
      pa.statement.assumptions = pn.statement.assumptions →
      pa.rules = pn.rules →
      pn.statement.conclusion = Formula.neg pa.statement.conclusion →
      refsOK (proveFromOpposites pa pn c).lines = true) ∧
    (∀ (p : Proof) (f : Formula), p.isValid = true →
      p.statement.conclusion =
        Formula.neg (fImp (Formula.var "p") (Formula.var "p")) →
      p.statement.assumptions ≠ [] →
      p.statement.assumptions.getLastD (Formula.const false) = Formula.neg f →
      (∀ r ∈ p.rules, r = MP ∨ r.assumptions = []) →
      refsOK (proveByWayOfContradiction p).lines = true) := by
  refine ⟨?_, ?_, ?_, ?_, ?_⟩
  · intro p c cond hv _
    exact proveCorollary_refsOK p c cond hv
  · intro p1 p2 c dc hv1 hv2 _ _ _
    exact combineProofs_refsOK p1 p2 c dc hv1 hv2
  · intro p hv hn hr
    obtain ⟨hvout, _, _, _⟩ := removeAssumption_full p hv hn hr
    obtain ⟨_, _, hall⟩ := (isValid_iff _).mp hvout
    exact refsOK_of_linesOK _ _ _ hall
  · intro pa pn c hva hvn _ _ _
    exact combineProofs_refsOK pn pa c I2 hvn hva
  · intro p f hv hconc hn hneg hr
    obtain ⟨hvout, _, _, _, _⟩ := proveByWayOfContradiction_full p f hv hconc hn hneg hr
    obtain ⟨_, _, hall⟩ := (isValid_iff _).mp hvout
    exact refsOK_of_linesOK _ _ _ hall

theorem deduction_engine_refsOK_witness :
    refsOK (proveCorollary exP1 (Formula.var "y")
      ⟨[], fImp (Formula.var "p") (Formula.var "q")⟩).lines = true ∧
    refsOK (combineProofs exP1 exP2 (Formula.var "z") exDC).lines = true ∧
    refsOK (removeAssumption exAssumpQ).lines = true ∧
    refsOK (proveFromOpposites exOppA exOppN (Formula.var "z")).lines = true ∧
    refsOK (proveByWayOfContradiction exNegQProof).lines = true :=
  ⟨deduction_engine_refsOK.1 exP1 (Formula.var "y")
    ⟨[], fImp (Formula.var "p") (Formula.var "q")⟩ (by decide) (by decide),
   deduction_engine_refsOK.2.1 exP1 exP2 (Formula.var "z") exDC
    (by decide) (by decide) (by decide) (by decide) (by decide),
   deduction_engine_refsOK.2.2.1 exAssumpQ (by decide) (by decide) (by decide),
   deduction_engine_refsOK.2.2.2.1 exOppA exOppN (Formula.var "z")
    (by decide) (by decide) (by decide) (by decide) (by decide),
   deduction_engine_refsOK.2.2.2.2 exNegQProof (Formula.var "q")
    (by decide) (by decide) (by decide) (by decide) (by decide)⟩

lemma evaluate_congr (f : Formula) (m1 m2 : Model)
    (h : ∀ v ∈ formulaVarsRaw f, modelLookup m1 v = modelLookup m2 v) :
    evaluate f m1 = evaluate f m2 := by
  induction f with
  | var v =>
    have := h v (by unfold formulaVarsRaw; exact List.mem_singleton.mpr rfl)
    simp only [evaluate]
    rw [this]
  | const b => rfl
  | neg g ih =>
    simp only [evaluate]
    rw [ih h]
  | binop op g1 g2 ih1 ih2 =>
    have h1 : ∀ v ∈ formulaVarsRaw g1, modelLookup m1 v = modelLookup m2 v := by
      intro v hv
      exact h v (by unfold formulaVarsRaw; exact List.mem_append_left _ hv)
    have h2 : ∀ v ∈ formulaVarsRaw g2, modelLookup m1 v = modelLookup m2 v := by
      intro v hv
      exact h v (by unfold formulaVarsRaw; exact List.mem_append_right _ hv)
    simp only [evaluate]
    rw [ih1 h1, ih2 h2]

lemma mem_foldr_vars (fs : List Formula) (f : Formula) (v : String)
    (hf : f ∈ fs) (hv : v ∈ formulaVarsRaw f) :
    v ∈ List.foldr (fun g acc => formulaVarsRaw g ++ acc) [] fs := by
  induction fs with
  | nil => exact absurd hf (List.not_mem_nil f)
  | cons g rest ih =>
    rw [List.foldr_cons]
    rcases List.mem_cons.mp hf with hg | hg
    · subst hg
      exact List.mem_append_left _ hv
    · exact List.mem_append_right _ (ih hg)

lemma mem_ruleVariables (r : InferenceRule) (f : Formula) (v : String)
    (hf : f ∈ r.assumptions ++ [r.conclusion]) (hv : v ∈ formulaVarsRaw f) :
    v ∈ ruleVariables r := by
  unfold ruleVariables
  rw [List.mem_dedup]
  exact mem_foldr_vars _ f v hf hv

lemma ruleVariables_nodup (r : InferenceRule) : (ruleVariables r).Nodup :=
  List.nodup_dedup _

lemma modelLookup_isSome_iff (m : Model) (v : String) :
    (modelLookup m v).isSome = true ↔ v ∈ modelKeys m := by
  unfold modelLookup modelKeys
  constructor
  · intro h
    cases hf : List.find? (fun p => decide (p.1 = v)) m with
    | none => rw [hf] at h; exact absurd h (by simp)
    | some q =>
      have hmem := List.find?_some hf
      have hq := List.mem_of_find?_eq_some hf
      rw [decide_eq_true_eq] at hmem
      rw [← hmem]
      exact List.mem_map_of_mem Prod.fst hq
  · intro h
    rw [List.mem_map] at h
    obtain ⟨q, hq, rfl⟩ := h
    have : (List.find? (fun p => decide (p.1 = q.1)) m).isSome = true := by
      rw [List.find?_isSome]
      exact ⟨q, hq, by simp⟩
    cases hf : List.find? (fun p => decide (p.1 = q.1)) m with
    | none => rw [hf] at this; exact absurd this (by simp)
    | some w => simp

lemma evaluateInference_congr (r : InferenceRule) (m1 m2 : Model)
    (h : ∀ v ∈ ruleVariables r, modelLookup m1 v = modelLookup m2 v) :
    evaluateInference r m1 = evaluateInference r m2 := by
  have hconc : evaluate r.conclusion m1 = evaluate r.conclusion m2 := by
    apply evaluate_congr
    intro v hv
    exact h v (mem_ruleVariables r r.conclusion v
      (List.mem_append_right _ (List.mem_singleton.mpr rfl)) hv)
  have hassum : r.assumptions.all (fun f => evaluate f m1) =
      r.assumptions.all (fun f => evaluate f m2) := by
    rw [Bool.eq_iff_iff]
    simp only [List.all_eq_true]
    constructor
    · intro H f hf
      rw [← evaluate_congr f m1 m2
        (fun v hv => h v (mem_ruleVariables r f v (List.mem_append_left _ hf) hv))]
      exact H f hf
    · intro H f hf
      rw [evaluate_congr f m1 m2
        (fun v hv => h v (mem_ruleVariables r f v (List.mem_append_left _ hf) hv))]
      exact H f hf
  unfold evaluateInference
  rw [hassum, hconc]

/-- C7: `evaluate_inference(rule, model)` holds iff all assumptions true in
the model implies the conclusion true (vacuously true when some assumption is
false), and `is_sound_inference(rule)` holds iff `evaluate_inference` holds
in every model over the rule's full variable set. -/
theorem evaluateInference_isSound_spec :
    (∀ (r : InferenceRule) (m : Model),
      (evaluateInference r m = true ↔
        ((∀ f ∈ r.assumptions, evaluate f m = true) →
          evaluate r.conclusion m = true)) ∧
      ((∃ f ∈ r.assumptions, evaluate f m = false) →
        evaluateInference r m = true)) ∧
    (∀ r : InferenceRule,
      isSoundInference r = true ↔
        ∀ m : Model, (∀ v, v ∈ ruleVariables r ↔ (modelLookup m v).isSome = true) →
          evaluateInference r m = true) := by
  have hpart1 : ∀ (r : InferenceRule) (m : Model),
      evaluateInference r m = true ↔
        ((∀ f ∈ r.assumptions, evaluate f m = true) →
          evaluate r.conclusion m = true) := by
    intro r m
    unfold evaluateInference
    by_cases hall : r.assumptions.all (fun f => evaluate f m) = true
    · rw [if_pos hall]
      rw [List.all_eq_true] at hall
      constructor
      · intro h _
        exact h
      · intro h
        exact h hall
    · rw [if_neg hall]
      constructor
      · intro _ hforall
        exfalso
        apply hall
        rw [List.all_eq_true]
        exact hforall
      · intro _
        rfl
  refine ⟨fun r m => ⟨hpart1 r m, ?_⟩, ?_⟩
  · rintro ⟨f, hf, hfalse⟩
    rw [hpart1]
    intro hforall
    rw [hforall f hf] at hfalse
    exact absurd hfalse (by simp)
  · intro r
    unfold isSoundInference
    rw [List.all_eq_true]
    constructor
    · intro H m hdom
      obtain ⟨i, hib, hbits⟩ := bitsBE_complete
        (fun j => (modelLookup m ((ruleVariables r).getD j "")).getD false)
        (ruleVariables r).length
      have hmem : buildModel (ruleVariables r) i ∈ allModels (ruleVariables r) := by
        unfold allModels
        exact List.mem_map_of_mem _ (List.mem_range.mpr hib)
      have heq : evaluateInference r (buildModel (ruleVariables r) i) =
          evaluateInference r m := by
        apply evaluateInference_congr
        intro v hv
        obtain ⟨j, hj, hvj⟩ := List.mem_iff_getElem.mp hv
        rw [← hvj, modelLookup_buildModel (ruleVariables r) i
          (ruleVariables_nodup r) j hj]
        have hb := hbits j hj
        rw [List.getD_eq_getElem _ _ hj] at hb
        rw [hb]
        have hsome : (modelLookup m (ruleVariables r)[j]).isSome = true :=
          (hdom (ruleVariables r)[j]).mp (hvj ▸ hv)
        cases hlk : modelLookup m (ruleVariables r)[j] with
        | none => rw [hlk] at hsome; exact absurd hsome (by simp)
        | some b => rfl
      rw [← heq]
      exact H _ hmem
    · intro H m hmem
      apply H
      unfold allModels at hmem
      rw [List.mem_map] at hmem
      obtain ⟨i, hi, rfl⟩ := hmem
      rw [List.mem_range] at hi
      intro v
      constructor
      · intro hv
        obtain ⟨j, hj, hvj⟩ := List.mem_iff_getElem.mp hv
        rw [← hvj, modelLookup_buildModel (ruleVariables r) i
          (ruleVariables_nodup r) j hj]
        rfl
      · intro hsome
        rw [modelLookup_isSome_iff] at hsome
        rw [modelKeys_buildModel _ _ (ruleVariables_nodup r)] at hsome
        exact hsome

theorem evaluateInference_isSound_spec_witness :
    evaluateInference ⟨[Formula.var "p"], Formula.var "q"⟩
      [("p", false), ("q", false)] = true :=
  (evaluateInference_isSound_spec.1 ⟨[Formula.var "p"], Formula.var "q"⟩
    [("p", false), ("q", false)]).2
    ⟨Formula.var "p", List.mem_singleton.mpr rfl, by decide⟩

lemma smLookup_append (l1 l2 : SpecMap) (k : String) :
    smLookup (l1 ++ l2) k =
      match smLookup l1 k with
      | some f => some f
      | none => smLookup l2 k := by
  unfold smLookup
  rw [List.find?_append]
  cases hf : List.find? (fun p => decide (p.1 = k)) l1 with
  | some q => rfl
  | none => rfl

lemma find?_filter_of_imp (l : List (String × Formula))
    (p q : String × Formula → Bool) (h : ∀ x ∈ l, p x = true → q x = true) :
    List.find? p (List.filter q l) = List.find? p l := by
  induction l with
  | nil => rfl
  | cons x rest ih =>
    have hrest : ∀ y ∈ rest, p y = true → q y = true := by
      intro y hy
      exact h y (List.mem_cons_of_mem x hy)
    cases hp : p x with
    | true =>
      have hq := h x (List.mem_cons_self x rest) hp
      rw [List.filter_cons_of_pos hq, List.find?_cons_of_pos _ hp,
        List.find?_cons_of_pos _ hp]
    | false =>
      rw [List.find?_cons_of_neg _ (by rw [hp]; exact Bool.false_ne_true)]
      cases hq : q x with
      | true =>
        rw [List.filter_cons_of_pos hq,
          List.find?_cons_of_neg _ (by rw [hp]; exact Bool.false_ne_true)]
        exact ih hrest
      | false =>
        rw [List.filter_cons_of_neg (by rw [hq]; exact Bool.false_ne_true)]
        exact ih hrest

lemma mergeMaps_left (σ1 σ2 σm : SpecMap) (h : mergeMaps σ1 σ2 = some σm)
    (k : String) (f : Formula) (hk : smLookup σ1 k = some f) :
    smLookup σm k = some f := by
  unfold mergeMaps at h
  by_cases hc : σ2.all (fun kv => smAgrees σ1 kv.1 kv.2) = true
  · rw [if_pos hc] at h
    injection h with h
    rw [← h, smLookup_append, hk]
  · rw [if_neg hc] at h
    exact absurd h (by simp)

lemma mergeMaps_right (σ1 σ2 σm : SpecMap) (h : mergeMaps σ1 σ2 = some σm)
    (k : String) (f : Formula) (hk : smLookup σ2 k = some f) :
    smLookup σm k = some f := by
  unfold mergeMaps at h
  by_cases hc : σ2.all (fun kv => smAgrees σ1 kv.1 kv.2) = true
  · rw [if_pos hc] at h
    injection h with h
    rw [← h, smLookup_append]
    cases h1 : smLookup σ1 k with
    | some g =>
      have hkmem : ∃ q ∈ σ2, q.1 = k ∧ q.2 = f := by
        unfold smLookup at hk
        cases hf : List.find? (fun p => decide (p.1 = k)) σ2 with
        | none => rw [hf] at hk; exact absurd hk (by simp)
        | some q =>
          rw [hf] at hk
          injection hk with hk
          have hmem := List.mem_of_find?_eq_some hf
          have hkey := List.find?_some hf
          rw [decide_eq_true_eq] at hkey
          exact ⟨q, hmem, hkey, hk⟩
      obtain ⟨q, hqmem, hqk, hqf⟩ := hkmem
      rw [List.all_eq_true] at hc
      have hag := hc q hqmem
      unfold smAgrees at hag
      rw [hqk, h1] at hag
      rw [decide_eq_true_eq] at hag
      rw [hag, hqf]
    | none =>
      show smLookup (List.filter (fun kv => (smLookup σ1 kv.1).isNone) σ2) k = some f
      have hfe : List.find? (fun p => decide (p.1 = k))
          (List.filter (fun kv => (smLookup σ1 kv.1).isNone) σ2) =
          List.find? (fun p => decide (p.1 = k)) σ2 := by
        apply find?_filter_of_imp
        intro x _ hx
        rw [decide_eq_true_eq] at hx
        rw [hx, h1]
        rfl
      unfold smLookup at hk hfe ⊢
      rw [hfe]
      exact hk
  · rw [if_neg hc] at h
    exact absurd h (by simp)

lemma evaluate_specMap (g : Formula) : ∀ (s : Formula) (σ0 σ : SpecMap),
    formulaSpecMap g s = some σ0 →
    (∀ k f, smLookup σ0 k = some f → smLookup σ k = some f) →
    ∀ (m' model : Model),
    (∀ v ∈ formulaVarsRaw g, ∀ f, smLookup σ v = some f →
      modelLookup m' v = some (evaluate f model)) →
    evaluate g m' = evaluate s model := by
  induction g with
  | var v =>
    intro s σ0 σ hfs hsub m' model hm
    unfold formulaSpecMap at hfs
    injection hfs with hfs
    have hl0 : smLookup σ0 v = some s := by
      rw [← hfs]
      unfold smLookup
      simp
    have hσv := hsub v s hl0
    have hmv := hm v (by unfold formulaVarsRaw; exact List.mem_singleton.mpr rfl) s hσv
    show (modelLookup m' v).getD false = evaluate s model
    rw [hmv]
    rfl
  | const b =>
    intro s σ0 σ hfs hsub m' model hm
    unfold formulaSpecMap at hfs
    by_cases hs : s = Formula.const b
    · subst hs
      rfl
    · rw [if_neg hs] at hfs
      exact absurd hfs (by simp)
  | neg g ih =>
    intro s σ0 σ hfs hsub m' model hm
    cases s with
    | var v => exact absurd hfs (by simp [formulaSpecMap])
    | const b => exact absurd hfs (by simp [formulaSpecMap])
    | binop op2 s1 s2 => exact absurd hfs (by simp [formulaSpecMap])
    | neg s1 =>
      have hfs' : formulaSpecMap g s1 = some σ0 := hfs
      have := ih s1 σ0 σ hfs' hsub m' model hm
      show (! evaluate g m') = (! evaluate s1 model)
      rw [this]
  | binop op g1 g2 ih1 ih2 =>
    intro s σ0 σ hfs hsub m' model hm
    cases s with
    | var v => exact absurd hfs (by simp [formulaSpecMap])
    | const b => exact absurd hfs (by simp [formulaSpecMap])
    | neg s1 => exact absurd hfs (by simp [formulaSpecMap])
    | binop op2 s1 s2 =>
      unfold formulaSpecMap at hfs
      by_cases hop : op = op2
      · rw [if_pos hop] at hfs
        cases h1 : formulaSpecMap g1 s1 with
        | none => rw [h1] at hfs; exact absurd hfs (by simp)
        | some σ1 =>
          cases h2 : formulaSpecMap g2 s2 with
          | none => rw [h1, h2] at hfs; exact absurd hfs (by simp)
          | some σ2 =>
            rw [h1, h2] at hfs
            have hsub1 : ∀ k f, smLookup σ1 k = some f → smLookup σ k = some f :=
              fun k f hk => hsub k f (mergeMaps_left σ1 σ2 σ0 hfs k f hk)
            have hsub2 : ∀ k f, smLookup σ2 k = some f → smLookup σ k = some f :=
              fun k f hk => hsub k f (mergeMaps_right σ1 σ2 σ0 hfs k f hk)
            have hm1 : ∀ v ∈ formulaVarsRaw g1, ∀ f, smLookup σ v = some f →
                modelLookup m' v = some (evaluate f model) := by
              intro v hv
              exact hm v (by unfold formulaVarsRaw; exact List.mem_append_left _ hv)
            have hm2 : ∀ v ∈ formulaVarsRaw g2, ∀ f, smLookup σ v = some f →
                modelLookup m' v = some (evaluate f model) := by
              intro v hv
              exact hm v (by unfold formulaVarsRaw; exact List.mem_append_right _ hv)
            have e1 := ih1 s1 σ1 σ h1 hsub1 m' model hm1
            have e2 := ih2 s2 σ2 σ h2 hsub2 m' model hm2
            subst hop
            simp only [evaluate]
            rw [e1, e2]
      · rw [if_neg hop] at hfs
        exact absurd hfs (by simp)

lemma modelLookup_ruleNonsoundness (G S : InferenceRule) (model : Model)
    (v : String) (hv : v ∈ ruleVariables G) :
    modelLookup (ruleNonsoundness G S model) v =
      some (evaluate ((smLookup ((ruleSpecMap G S).getD []) v).getD
        (Formula.const false)) model) := by
  obtain ⟨j, hj, hvj⟩ := List.mem_iff_getElem.mp hv
  have hlen : (ruleNonsoundness G S model).length = (ruleVariables G).length := by
    unfold ruleNonsoundness
    simp
  have hkeys : modelKeys (ruleNonsoundness G S model) = ruleVariables G := by
    unfold modelKeys ruleNonsoundness
    rw [List.map_map]
    have hcomp : (Prod.fst ∘ fun v =>
        (v, evaluate ((smLookup ((ruleSpecMap G S).getD []) v).getD
          (Formula.const false)) model)) = id := funext fun v => rfl
    rw [hcomp, List.map_id]
  have hjb : j < (ruleNonsoundness G S model).length := by rw [hlen]; exact hj
  have hget : (ruleNonsoundness G S model)[j] =
      ((ruleVariables G)[j],
        evaluate ((smLookup ((ruleSpecMap G S).getD []) (ruleVariables G)[j]).getD
          (Formula.const false)) model) := by
    unfold ruleNonsoundness
    simp
  have := modelLookup_getElem (ruleNonsoundness G S model)
    (by rw [hkeys]; exact ruleVariables_nodup G) j (by rw [hlen]; exact hj)
  rw [hget] at this
  rw [hvj] at this
  exact this

lemma rsm_foldl_none (L : List (Formula × Formula)) :
    List.foldl
      (fun acc gs =>
        match acc, formulaSpecMap gs.1 gs.2 with
        | some σ, some σ2 => mergeMaps σ σ2
        | _, _ => none)
      none L = none := by
  induction L with
  | nil => rfl
  | cons gs rest ih =>
    simp only [List.foldl_cons]
    cases hfs : formulaSpecMap gs.1 gs.2 with
    | none => exact ih
    | some σ2 => exact ih

lemma rsm_foldl_spec (L : List (Formula × Formula)) : ∀ (acc σfin : SpecMap),
    List.foldl
      (fun acc gs =>
        match acc, formulaSpecMap gs.1 gs.2 with
        | some σ, some σ2 => mergeMaps σ σ2
        | _, _ => none)
      (some acc) L = some σfin →
    (∀ k f, smLookup acc k = some f → smLookup σfin k = some f) ∧
    (∀ gs ∈ L, ∃ σi, formulaSpecMap gs.1 gs.2 = some σi ∧
      ∀ k f, smLookup σi k = some f → smLookup σfin k = some f) := by
  induction L with
  | nil =>
    intro acc σfin h
    simp only [List.foldl_nil] at h
    injection h with h
    subst h
    exact ⟨fun k f hk => hk, fun gs hgs => absurd hgs (List.not_mem_nil gs)⟩
  | cons gs rest ih =>
    intro acc σfin h
    simp only [List.foldl_cons] at h
    cases hfs : formulaSpecMap gs.1 gs.2 with
    | none =>
      rw [hfs] at h
      have h2 : List.foldl
          (fun acc gs =>
            match acc, formulaSpecMap gs.1 gs.2 with
            | some σ, some σ2 => mergeMaps σ σ2
            | _, _ => none)
          none rest = some σfin := h
      rw [rsm_foldl_none] at h2
      exact absurd h2 (by simp)
    | some σi =>
      rw [hfs] at h
      have h2 : List.foldl
          (fun acc gs =>
            match acc, formulaSpecMap gs.1 gs.2 with
            | some σ, some σ2 => mergeMaps σ σ2
            | _, _ => none)
          (mergeMaps acc σi) rest = some σfin := h
      cases hm : mergeMaps acc σi with
      | none =>
        rw [hm] at h2
        rw [rsm_foldl_none] at h2
        exact absurd h2 (by simp)
      | some σm =>
        rw [hm] at h2
        obtain ⟨hacc, hrest⟩ := ih σm σfin h2
        refine ⟨?_, ?_⟩
        · intro k f hk
          exact hacc k f (mergeMaps_left acc σi σm hm k f hk)
        · intro gs2 hgs2
          rcases List.mem_cons.mp hgs2 with hg | hg
          · subst hg
            exact ⟨σi, hfs, fun k f hk =>
              hacc k f (mergeMaps_right acc σi σm hm k f hk)⟩
          · exact hrest gs2 hg

lemma ruleSpecMap_pairs (G S : InferenceRule) (σ : SpecMap)
    (h : ruleSpecMap G S = some σ) :
    S.assumptions.length = G.assumptions.length ∧
    (∀ gs ∈ List.zip (G.assumptions ++ [G.conclusion])
        (S.assumptions ++ [S.conclusion]),
      ∃ σi, formulaSpecMap gs.1 gs.2 = some σi ∧
        ∀ k f, smLookup σi k = some f → smLookup σ k = some f) := by
  unfold ruleSpecMap at h
  by_cases hlen : S.assumptions.length = G.assumptions.length
  · rw [if_pos hlen] at h
    exact ⟨hlen, (rsm_foldl_spec _ [] σ h).2⟩
  · rw [if_neg hlen] at h
    exact absurd h (by simp)

lemma evaluate_ruleNonsoundness (G S : InferenceRule) (model : Model)
    (σ : SpecMap) (hσ : ruleSpecMap G S = some σ)
    (g s : Formula)
    (hg : g ∈ G.assumptions ++ [G.conclusion])
    (hpair : ∃ σi, formulaSpecMap g s = some σi ∧
      ∀ k f, smLookup σi k = some f → smLookup σ k = some f) :
    evaluate g (ruleNonsoundness G S model) = evaluate s model := by
  obtain ⟨σi, hfs, hsub⟩ := hpair
  apply evaluate_specMap g s σi σ hfs hsub
  intro v hv f hf
  have hvG : v ∈ ruleVariables G := mem_ruleVariables G g v hg hv
  rw [modelLookup_ruleNonsoundness G S model v hvG, hσ]
  simp only [Option.getD_some]
  rw [hf]
  simp only [Option.getD_some]

lemma ruleNonsoundness_spec (G S : InferenceRule) (model : Model)
    (hspec : isSpecializationOf S G = true)
    (hfail : evaluateInference S model = false) :
    evaluateInference G (ruleNonsoundness G S model) = false := by
  unfold isSpecializationOf at hspec
  rw [Option.isSome_iff_exists] at hspec
  obtain ⟨σ, hσ⟩ := hspec
  obtain ⟨hlen, hpairs⟩ := ruleSpecMap_pairs G S σ hσ
  unfold evaluateInference at hfail
  by_cases hall : S.assumptions.all (fun f => evaluate f model) = true
  case neg =>
    rw [if_neg hall] at hfail
    exact absurd hfail (by simp)
  case pos =>
    rw [if_pos hall] at hfail
    have hzip : List.zip (G.assumptions ++ [G.conclusion])
        (S.assumptions ++ [S.conclusion]) =
        List.zip G.assumptions S.assumptions ++ [(G.conclusion, S.conclusion)] := by
      rw [List.zip_append hlen.symm]
      rfl
    have hconcl : evaluate G.conclusion (ruleNonsoundness G S model) =
        evaluate S.conclusion model := by
      apply evaluate_ruleNonsoundness G S model σ hσ G.conclusion S.conclusion
        (List.mem_append_right _ (List.mem_singleton.mpr rfl))
      exact hpairs (G.conclusion, S.conclusion)
        (by rw [hzip]; exact List.mem_append_right _ (List.mem_singleton.mpr rfl))
    have hGall : G.assumptions.all
        (fun f => evaluate f (ruleNonsoundness G S model)) = true := by
      rw [List.all_eq_true]
      intro g hg
      obtain ⟨i, hi, hgi⟩ := List.mem_iff_getElem.mp hg
      have hiz : i < (List.zip G.assumptions S.assumptions).length := by
        rw [List.length_zip]
        omega
      have hiS : i < S.assumptions.length := by omega
      have hpz : (G.assumptions[i], S.assumptions[i]) ∈
          List.zip (G.assumptions ++ [G.conclusion])
            (S.assumptions ++ [S.conclusion]) := by
        rw [hzip]
        apply List.mem_append_left
        have hgz := @List.getElem_zip _ _ G.assumptions S.assumptions i hiz
        rw [← hgz]
        exact List.getElem_mem hiz
      have htr := evaluate_ruleNonsoundness G S model σ hσ
        (G.assumptions[i]) (S.assumptions[i])
        (List.mem_append_left _ (List.getElem_mem hi))
        (hpairs _ hpz)
      rw [← hgi, htr]
      exact List.all_eq_true.mp hall _ (List.getElem_mem (by omega))
    unfold evaluateInference
    rw [hGall, if_pos rfl, hconcl]
    exact hfail

lemma nrLoop_found (p : Proof) (model : Model)
    (hassum : ∀ i, i < p.lines.length → (p.lines.getD i junkLine).rule = none →
      evaluate (p.lines.getD i junkLine).formula model = true) :
    ∀ (rest : List ProofLine) (t : Nat),
      rest = p.lines.drop t →
      (∀ i2, i2 < t → evaluate (p.lines.getD i2 junkLine).formula model = true) →
      (∃ i, t ≤ i ∧ i < p.lines.length ∧
        evaluate (p.lines.getD i junkLine).formula model = false) →
      ∃ i r, t ≤ i ∧ i < p.lines.length ∧
        (∀ i2, i2 < i → evaluate (p.lines.getD i2 junkLine).formula model = true) ∧
        (p.lines.getD i junkLine).rule = some r ∧
        evaluate (p.lines.getD i junkLine).formula model = false ∧
        nrLoop p.lines model t rest =
          NRes.found r (ruleNonsoundness r (ruleForLine p.lines i) model) := by
  intro rest
  induction rest with
  | nil =>
    intro t hdrop hpre hex
    obtain ⟨i, hti, hilen, hif⟩ := hex
    exfalso
    have hlen0 : (p.lines.drop t).length = p.lines.length - t := List.length_drop t p.lines
    rw [← hdrop] at hlen0
    simp only [List.length_nil] at hlen0
    omega
  | cons l rest2 ih =>
    intro t hdrop hpre hex
    have htlen : t < p.lines.length := by
      by_contra hge
      push_neg at hge
      have hnil : p.lines.drop t = [] := List.drop_eq_nil_of_le hge
      rw [hnil] at hdrop
      exact absurd hdrop (by simp)
    have hl : l = p.lines.getD t junkLine := by
      have h0 : (p.lines.drop t).getD 0 junkLine = p.lines.getD t junkLine := by
        rw [List.getD_eq_getElem?_getD, List.getD_eq_getElem?_getD, List.getElem?_drop]
        simp
      rw [← hdrop] at h0
      simpa using h0
    have hrest2 : rest2 = p.lines.drop (t + 1) := by
      have hcd := congrArg (List.drop 1) hdrop
      rw [List.drop_drop] at hcd
      simpa using hcd
    cases hev : evaluate l.formula model with
    | true =>
      have hpre2 : ∀ i2, i2 < t + 1 →
          evaluate (p.lines.getD i2 junkLine).formula model = true := by
        intro i2 hi2
        rcases Nat.lt_succ_iff_lt_or_eq.mp hi2 with h | h
        · exact hpre i2 h
        · subst h
          rw [← hl]
          exact hev
      have hex2 : ∃ i, t + 1 ≤ i ∧ i < p.lines.length ∧
          evaluate (p.lines.getD i junkLine).formula model = false := by
        obtain ⟨i, hti, hilen, hif⟩ := hex
        refine ⟨i, ?_, hilen, hif⟩
        rcases Nat.eq_or_lt_of_le hti with h | h
        · subst h
          rw [← hl, hev] at hif
          exact absurd hif (by simp)
        · omega
      obtain ⟨i, r, hti, hilen, hprei, hrule, hif, hres⟩ := ih (t + 1) hrest2 hpre2 hex2
      refine ⟨i, r, by omega, hilen, hprei, hrule, hif, ?_⟩
      have hstep : nrLoop p.lines model t (l :: rest2) =
          nrLoop p.lines model (t + 1) rest2 := by
        cases hlr : l.rule with
        | none => simp [nrLoop, hlr, hev]
        | some r2 => simp [nrLoop, hlr, hev]
      rw [hstep]
      exact hres
    | false =>
      have hft : evaluate (p.lines.getD t junkLine).formula model = false := by
        rw [← hl]
        exact hev
      cases hrule : (p.lines.getD t junkLine).rule with
      | none =>
        have := hassum t htlen hrule
        rw [hft] at this
        exact absurd this (by simp)
      | some r =>
        refine ⟨t, r, Nat.le_refl t, htlen, hpre, hrule, hft, ?_⟩
        have hlr : l.rule = some r := by
          rw [hl]
          exact hrule
        simp [nrLoop, hlr, hev]

/-- C6: for every valid proof whose overall statement does not hold in a given
model, `nonsound_rule_of_nonsound_proof` walks the lines in order: every
assumption line's formula holds in the model (so its assertion passes), and at
the first line whose formula evaluates to false — necessarily a derived line —
the function returns that line's cited general rule paired with the model
produced by `rule_nonsoundness_from_specialization_nonsoundness`, a model in
which that general rule does not hold; the case of no false line being found
cannot arise under these preconditions. -/
theorem nonsoundProof_spec (p : Proof) (model : Model)
    (hv : p.isValid = true)
    (hfail : evaluateInference p.statement model = false) :
    (∀ i, i < p.lines.length → (p.lines.getD i junkLine).rule = none →
      evaluate (p.lines.getD i junkLine).formula model = true) ∧
    (∃ i r, i < p.lines.length ∧
      (∀ i2, i2 < i → evaluate (p.lines.getD i2 junkLine).formula model = true) ∧
      (p.lines.getD i junkLine).rule = some r ∧
      evaluate (p.lines.getD i junkLine).formula model = false ∧
      nonsoundRuleOfNonsoundProof p model =
        NRes.found r (ruleNonsoundness r (ruleForLine p.lines i) model) ∧
      evaluateInference r (ruleNonsoundness r (ruleForLine p.lines i) model) =
        false) ∧
    ((∀ i, i < p.lines.length →
        evaluate (p.lines.getD i junkLine).formula model = true) → False) := by
  obtain ⟨hne, hlast, hallOK⟩ := (isValid_iff p).mp hv
  unfold evaluateInference at hfail
  by_cases hall : p.statement.assumptions.all (fun f => evaluate f model) = true
  case neg =>
    rw [if_neg hall] at hfail
    exact absurd hfail (by simp)
  case pos =>
  rw [if_pos hall] at hfail
  have hassum : ∀ i, i < p.lines.length → (p.lines.getD i junkLine).rule = none →
      evaluate (p.lines.getD i junkLine).formula model = true := by
    intro i hi hr
    have hok := hallOK i hi
    rw [lineOK_none_iff _ _ _ _ hr] at hok
    rw [decide_eq_true_eq] at hok
    exact List.all_eq_true.mp hall _ hok
  have hlen0 : 0 < p.lines.length := List.length_pos.mpr hne
  have hlastf : evaluate (p.lines.getD (p.lines.length - 1) junkLine).formula
      model = false := by
    rw [← getLastD_eq_getD_pred p.lines junkLine hne, hlast]
    exact hfail
  have hex : ∃ i, 0 ≤ i ∧ i < p.lines.length ∧
      evaluate (p.lines.getD i junkLine).formula model = false :=
    ⟨p.lines.length - 1, Nat.zero_le _, by omega, hlastf⟩
  obtain ⟨i, r, _, hilen, hprei, hrule, hif, hres⟩ :=
    nrLoop_found p model hassum p.lines 0 (List.drop_zero p.lines).symm
      (fun i2 hi2 => absurd hi2 (Nat.not_lt_zero i2)) hex
  have hspec : isSpecializationOf (ruleForLine p.lines i) r = true := by
    have hok := hallOK i hilen
    rw [lineOK_some_iff _ _ _ _ r hrule] at hok
    simp only [Bool.and_eq_true] at hok
    exact hok.2
  have hfaili : evaluateInference (ruleForLine p.lines i) model = false := by
    have hassump_all : (ruleForLine p.lines i).assumptions.all
        (fun f => evaluate f model) = true := by
      rw [List.all_eq_true]
      intro g hg
      have hg2 : g ∈ List.map (fun j => (p.lines.getD j junkLine).formula)
          (p.lines.getD i junkLine).refs := hg
      rw [List.mem_map] at hg2
      obtain ⟨j, hj, rfl⟩ := hg2
      have hji : j < i := valid_refs_lt p hv i hilen (by rw [hrule]; simp) j hj
      exact hprei j hji
    unfold evaluateInference
    rw [hassump_all, if_pos rfl]
    exact hif
  refine ⟨hassum,
    ⟨i, r, hilen, hprei, hrule, hif, ?_,
      ruleNonsoundness_spec _ _ _ hspec hfaili⟩, ?_⟩
  · show nrLoop p.lines model 0 p.lines = _
    exact hres
  · intro halltrue
    have hcontra := halltrue (p.lines.length - 1) (by omega)
    rw [hlastf] at hcontra
    exact absurd hcontra (by simp)

/-- Witness for C6: the one-line proof of `q` from no assumptions by the
non-sound rule `exBad` (no assumptions, conclusion `q`), in the model making
`q` false. -/
theorem nonsoundProof_spec_witness :
    exBadProof.isValid = true ∧
    evaluateInference exBadProof.statement [("q", false)] = false ∧
    ((∀ i, i < exBadProof.lines.length →
        (exBadProof.lines.getD i junkLine).rule = none →
        evaluate (exBadProof.lines.getD i junkLine).formula [("q", false)] =
          true) ∧
      (∃ i r, i < exBadProof.lines.length ∧
        (∀ i2, i2 < i →
          evaluate (exBadProof.lines.getD i2 junkLine).formula [("q", false)] =
            true) ∧
        (exBadProof.lines.getD i junkLine).rule = some r ∧
        evaluate (exBadProof.lines.getD i junkLine).formula [("q", false)] =
          false ∧
        nonsoundRuleOfNonsoundProof exBadProof [("q", false)] =
          NRes.found r
            (ruleNonsoundness r (ruleForLine exBadProof.lines i)
              [("q", false)]) ∧
        evaluateInference r
          (ruleNonsoundness r (ruleForLine exBadProof.lines i)
            [("q", false)]) = false) ∧
      ((∀ i, i < exBadProof.lines.length →
          evaluate (exBadProof.lines.getD i junkLine).formula [("q", false)] =
            true) → False)) :=
  ⟨by decide, by decide,
    nonsoundProof_spec exBadProof [("q", false)] (by decide) (by decide)⟩
